import Mathlib

/-!
# Verification of the quick-sync core of `ai-coders-context`

This file gives a shallow embedding, in Lean 4, of the synchronization core of
the repository: the Antigravity workflow format transformers
(`src/services/sync/antigravityWorkflowFormat.ts`), the predefined command
seeding (`src/generators/commands`), and the `QuickSyncService` orchestrator
(`src/services/quickSync/quickSyncService.ts`), together with theorems about
the properties the specification asserts of them.

Strings are modelled as `List Char` (`Str`).  JavaScript string methods are
translated operation by operation: `trim`, `trimEnd`, `split('\n')`,
`join(sep)`, and the specific regular expressions the source uses, each
embedded as a recursive function whose scan order mirrors the JS regex engine
(leftmost match, `m`-flag `^` anchoring at line starts, lazy/greedy
quantifiers as in the source).  JS `.length` is modelled by list length
(identical for the ASCII content these files handle).
-/

/-- Strings as lists of characters. -/
abbrev Str := List Char

/-- Coerce a Lean string literal to the `List Char` model. -/
def str (s : String) : Str := s.data

/-- JS whitespace class (`\s`, `trim`): the ASCII whitespace characters.
(JS additionally treats rare Unicode spaces as `\s`; the files this system
processes are ASCII, and nothing below depends on the wider class.) -/
def jsIsWS (c : Char) : Bool :=
  c = ' ' || c = '\t' || c = '\n' || c = '\r' || c = '\x0b' || c = '\x0c'

/-- JS `String.prototype.trim`: drop leading and trailing whitespace. -/
def jsTrim (s : Str) : Str :=
  ((s.dropWhile jsIsWS).reverse.dropWhile jsIsWS).reverse

/-- JS `String.prototype.trimEnd`: drop trailing whitespace. -/
def jsTrimEnd (s : Str) : Str :=
  (s.reverse.dropWhile jsIsWS).reverse

/-- Worker for `collapseWS`; the flag records whether the scanner is inside a
whitespace run whose single replacement space has already been emitted. -/
def collapseGo : Bool → Str → Str
  | _, [] => []
  | inRun, c :: cs =>
    if jsIsWS c then
      if inRun then collapseGo true cs else ' ' :: collapseGo true cs
    else c :: collapseGo false cs

/-- JS `s.replace(/\s+/g, ' ')`: collapse every maximal whitespace run to a
single space. -/
def collapseWS (s : Str) : Str := collapseGo false s

/-- JS `s.split(/\n/)` (aka `split('\n')`): the list of lines; always
nonempty, and a trailing newline yields a final empty line. -/
def splitNl : Str → List Str
  | [] => [[]]
  | c :: cs =>
    if c = '\n' then [] :: splitNl cs
    else
      match splitNl cs with
      | l :: ls => (c :: l) :: ls
      | [] => [[c]]

/-- JS `Array.prototype.join(sep)` on a list of strings. -/
def joinSep (sep : Str) : List Str → Str
  | [] => []
  | [l] => l
  | l :: ls => l ++ sep ++ joinSep sep ls

/-! ## `antigravityWorkflowFormat.ts` -/

/-- `DESCRIPTION_MAX_LENGTH` from `antigravityWorkflowFormat.ts`. -/
def DESCRIPTION_MAX_LENGTH : Nat := 250

/-- The regex test `/^#\s+(.+?)(?:\n|$)/m` tried at one candidate position
(a line start).  A match needs `#` followed by at least one whitespace
character.  The greedy `\s+` then takes the maximal whitespace run; the lazy
`(.+?)(?:\n|$)` captures from the first non-whitespace character to the end
of its line.  When the whitespace run reaches the end of the string the
engine backtracks `\s+`, and the lazy group ends up capturing the last
non-newline character of the run past its first character, if any. -/
def headingAt (s : Str) : Option Str :=
  match s with
  | x :: c :: rest =>
    if x = '#' ∧ jsIsWS c then
      match (c :: rest).dropWhile jsIsWS with
      | [] =>
        match (rest.filter (fun y => decide (y ≠ '\n'))).getLast? with
        | some ch => some [ch]
        | none => none
      | a :: tail => some ((a :: tail).takeWhile (fun y => decide (y ≠ '\n')))
    else none
  | _ => none

/-- Scan the positions after each `'\n'` (the non-initial `m`-flag `^`
anchors), leftmost first, applying a single-position matcher. -/
def scanAux (f : Str → Option Str) : Str → Option Str
  | [] => none
  | c :: rest =>
    if c = '\n' then
      match f rest with
      | some h => some h
      | none => scanAux f rest
    else scanAux f rest

/-- `trimmed.match(/^#\s+(.+?)(?:\n|$)/m)`: first line start where
`headingAt` matches. -/
def findHeading (s : Str) : Option Str :=
  match headingAt s with
  | some h => some h
  | none => scanAux headingAt s

/-- The `firstLine` local of `deriveDescription`: the trimmed regex capture
when the heading regex matches, otherwise the trimmed first line with a
`'Workflow'` fallback for the empty string. -/
def deriveFirstLine (trimmed : Str) : Str :=
  match findHeading trimmed with
  | some h => jsTrim h
  | none =>
    let t := jsTrim ((splitNl trimmed).headI)
    if t = [] then str "Workflow" else t

/-- The `cleaned` local of `deriveDescription`:
`firstLine.replace(/\s+/g, ' ').trim()`. -/
def deriveCleaned (firstLine : Str) : Str :=
  jsTrim (collapseWS firstLine)

/-- `deriveDescription` from `antigravityWorkflowFormat.ts` (the source's
`trimmed`/`firstLine`/`cleaned` locals are the nested applications). -/
def deriveDescription (content : Str) : Str :=
  if (deriveCleaned (deriveFirstLine (jsTrim content))).length ≤ DESCRIPTION_MAX_LENGTH then
    deriveCleaned (deriveFirstLine (jsTrim content))
  else
    (deriveCleaned (deriveFirstLine (jsTrim content))).take (DESCRIPTION_MAX_LENGTH - 3)
      ++ str "..."

/-- The regex test `/^\d+\.\s+/m` tried at one line start: one or more
digits, a dot, then at least one whitespace character (`\s` includes the
newline). -/
def numberedAt (s : Str) : Bool :=
  decide (s.takeWhile Char.isDigit ≠ []) &&
    match s.drop (s.takeWhile Char.isDigit).length with
    | d :: c :: _ => d = '.' && jsIsWS c
    | _ => false

/-- Scan the positions after each `'\n'` with a Boolean single-position
matcher. -/
def scanAuxB (f : Str → Bool) : Str → Bool
  | [] => false
  | c :: rest =>
    if c = '\n' then f rest || scanAuxB f rest
    else scanAuxB f rest

/-- `/^\d+\.\s+/m.test(s)`: some line start satisfies `numberedAt`. -/
def hasNumbered (s : Str) : Bool :=
  numberedAt s || scanAuxB numberedAt s

/-- `ensureSteps` from `antigravityWorkflowFormat.ts`. -/
def ensureSteps (body : Str) : Str :=
  let trimmed := jsTrim body
  if hasNumbered trimmed then trimmed
  else str "1. " ++ joinSep (str "\n   ") (splitNl trimmed)

/-- Does the string begin with three dashes (`---`)? -/
def startsTriple (s : Str) : Bool :=
  match s with
  | a :: b :: c :: _ => a = '-' && b = '-' && c = '-'
  | _ => false

/-- Is `---` a substring? -/
def hasTriple : Str → Bool
  | [] => false
  | c :: rest => startsTriple (c :: rest) || hasTriple rest

/-- Leftmost occurrence of `---`; returns the suffix after it (the lazy
`[\s\S]*?---` step of the front-matter regex). -/
def findTriple : Str → Option Str
  | [] => none
  | c :: rest =>
    if startsTriple (c :: rest) then some (rest.drop 2)
    else findTriple rest

/-- The regex `/^---[\s\S]*?---\s*/m` tried at one line start: an opening
`---`, the lazily-minimal stretch to a closing `---`, then greedy trailing
whitespace.  Returns the suffix after the whole match. -/
def fmMatchAt (s : Str) : Option Str :=
  if startsTriple s then
    match findTriple (s.drop 3) with
    | some after => some (after.dropWhile jsIsWS)
    | none => none
  else none

/-- Scan for the replacement, keeping the prefix before the match. -/
def replaceFMAux : Str → Str
  | [] => []
  | c :: cs =>
    c ::
      (if c = '\n' then
        match fmMatchAt cs with
        | some rest => rest
        | none => replaceFMAux cs
      else replaceFMAux cs)

/-- `content.replace(/^---[\s\S]*?---\s*/m, '')`: remove the first (leftmost
line start) front-matter-shaped block, if any. -/
def replaceFM (s : Str) : Str :=
  match fmMatchAt s with
  | some rest => rest
  | none => replaceFMAux s

/-- Options record of `toAntigravityWorkflowContent`; `steps` models the
optional `ensureSteps` flag. -/
structure WorkflowOptions where
  description : Option Str := none
  steps : Option Bool := none

/-- JS `finalDescription.replace(/\n/g, ' ')`. -/
def mapNl (s : Str) : Str :=
  s.map (fun c => if c = '\n' then ' ' else c)

/-- The `description` local of `toAntigravityWorkflowContent`: the caller's
option when nonempty (JS truthiness) and short enough, else derived. -/
def workflowDescription (content : Str) (options : WorkflowOptions) : Str :=
  match options.description with
  | some d => if d ≠ [] ∧ d.length ≤ DESCRIPTION_MAX_LENGTH then d
              else deriveDescription content
  | none => deriveDescription content

/-- The `finalDescription` local of `toAntigravityWorkflowContent`. -/
def finalDescription (content : Str) (options : WorkflowOptions) : Str :=
  if DESCRIPTION_MAX_LENGTH < (workflowDescription content options).length then
    (workflowDescription content options).take (DESCRIPTION_MAX_LENGTH - 3) ++ str "..."
  else workflowDescription content options

/-- The `body` local of `toAntigravityWorkflowContent`: strip the first
front-matter-shaped block, then trim. -/
def workflowBody (content : Str) : Str := jsTrim (replaceFM content)

/-- `toAntigravityWorkflowContent` from `antigravityWorkflowFormat.ts`:
front-matter with the final description (newlines mapped to spaces), a blank
line, then the body, normalized to numbered steps unless disabled. -/
def toAntigravityWorkflowContent (content : Str)
    (options : WorkflowOptions := {}) : Str :=
  (str "---\ndescription: " ++ mapNl (finalDescription content options) ++ str "\n---\n")
    ++ '\n' ::
      (if options.steps = some false then workflowBody content
       else ensureSteps (workflowBody content))
    ++ ['\n']

/-- `filename.replace(/\.md$/i, '')` from `toAntigravityFilename`. -/
def stripMdExt (s : Str) : Str :=
  match s.reverse with
  | d :: m :: '.' :: rest =>
    if (d = 'd' ∨ d = 'D') ∧ (m = 'm' ∨ m = 'M') then rest.reverse else s
  | _ => s

/-- JS `String.prototype.toLowerCase` on one ASCII character. -/
def jsToLower (c : Char) : Char :=
  if 'A' ≤ c ∧ c ≤ 'Z' then Char.ofNat (c.toNat + 32) else c

/-- `toAntigravityFilename` from `antigravityWorkflowFormat.ts`. -/
def toAntigravityFilename (filename : Str) : Str :=
  let base := stripMdExt filename
  let withUnderscores := (base.map (fun c => if c = '-' then '_' else c)).map jsToLower
  withUnderscores ++ str ".md"

example : toAntigravityFilename (str "init-mcp-only.md") = str "init_mcp_only.md" := by decide
example : deriveDescription (str "# Hello  World\nbody") = str "Hello World" := by decide
example : deriveDescription (str "   \n ") = str "Workflow" := by decide
example : ensureSteps (str "a\nb") = str "1. a\n   b" := by decide
example : ensureSteps (str "1. a\n") = str "1. a" := by decide
example : replaceFM (str "intro\n---\nsep\n---\ntail") = str "intro\ntail" := by decide
example : toAntigravityWorkflowContent (str "hello world") =
    str "---\ndescription: hello world\n---\n\n1. hello world\n" := by decide

/-! ## `commandTemplates.ts` and `generateCommands` -/

/-- A predefined slash-command template (`CommandTemplate` interface). -/
structure CommandTemplate where
  filename : Str
  content : Str

/-- Body of the single predefined command, transcribed from
`commandTemplates.ts` (template literal, with the escaped backticks
unescaped as JS does). -/
def initMcpOnlyContent : Str := str "# Init context (MCP only)\n\nInitialize the project context **only via MCP** — do not run init from the CLI.\n\nUse the context tool with action `init` in your MCP-enabled client (e.g. Cursor, Claude). Suggested parameters:\n\n- **type**: `both` (docs + agents)\n- **semantic**: `true`\n- **autoFill**: `true`\n- **generateSkills**: `true`\n\nThis ensures the scaffolding is created and filled using the MCP server attached to this repo."

/-- `PREDEFINED_COMMANDS` from `commandTemplates.ts`. -/
def PREDEFINED_COMMANDS : List CommandTemplate :=
  [{ filename := str "init-mcp-only.md", content := initMcpOnlyContent }]

/-- Contents of the destination `commands` directory, filename to file
content.  `generateCommands` touches no other directory. -/
def DirFS := Str → Option Str

/-- `fs.writeFile` inside one directory. -/
def dirWrite (fs : DirFS) (name content : Str) : DirFS :=
  fun n => if n = name then some content else fs n

/-- The bytes `generateCommands` writes for a template:
`cmd.content.trimEnd() + '\n'`. -/
def seedContent (cmd : CommandTemplate) : Str := jsTrimEnd cmd.content ++ ['\n']

/-- Result of `generateCommands` (`GenerateCommandsResult`, minus the
constant `commandsDir` path). -/
structure GenResult where
  fs : DirFS
  generated : List Str
  skipped : List Str

/-- The per-template loop of `generateCommands`. -/
def generateCommandsGo (force : Bool) : DirFS → List CommandTemplate → GenResult
  | fs, [] => { fs := fs, generated := [], skipped := [] }
  | fs, cmd :: rest =>
    if (fs cmd.filename).isSome && !force then
      let r := generateCommandsGo force fs rest
      { r with skipped := cmd.filename :: r.skipped }
    else
      let fs2 := dirWrite fs cmd.filename (seedContent cmd)
      let r := generateCommandsGo force fs2 rest
      { r with generated := cmd.filename :: r.generated }

/-- `generateCommands` from the commands generator: write each predefined
command into the commands directory unless it exists and `force` is off. -/
def generateCommands (fs : DirFS) (force : Bool) : GenResult :=
  generateCommandsGo force fs PREDEFINED_COMMANDS

/-! ## Filesystem model and `exportCommandsToAntigravity` -/

/-- Abstract filesystem: file contents by path, plus the set of directories
(`fs.ensureDir` targets). -/
structure FS where
  files : Str → Option Str
  dirs : Str → Bool

/-- `path.join(a, b)` on abstract paths. -/
def pathJoin (a b : Str) : Str := a ++ '/' :: b

/-- `path.resolve(root, p)` on abstract paths (targets are repo-relative). -/
def pathResolve (root p : Str) : Str := root ++ '/' :: p

/-- `fs.ensureDir`. -/
def ensureDir (fs : FS) (d : Str) : FS :=
  { fs with dirs := fun x => if x = d then true else fs.dirs x }

/-- `fs.writeFile`. -/
def fsWrite (fs : FS) (p c : Str) : FS :=
  { fs with files := fun x => if x = p then some c else fs.files x }

/-- The write loop of `exportCommandsToAntigravity`: read each source file,
transform content and filename, always overwrite the destination.  A missing
source file raises (`fs.readFile` rejection), carried as `.error`; writes
performed before the failure persist. -/
def exportGo (sourceDir targetDir : Str) : FS → List Str → Nat → FS × Except Str Nat
  | fs, [], written => (fs, .ok written)
  | fs, filename :: rest, written =>
    match fs.files (pathJoin sourceDir filename) with
    | none => (fs, .error (str "ENOENT: " ++ pathJoin sourceDir filename))
    | some content =>
      let workflowContent := toAntigravityWorkflowContent content
      let outPath := pathJoin targetDir (toAntigravityFilename filename)
      exportGo sourceDir targetDir (fsWrite fs outPath workflowContent) rest (written + 1)

/-- `QuickSyncService.exportCommandsToAntigravity`.  On `dryRun` it returns
the file count before touching the filesystem (no `ensureDir`, no writes). -/
def exportCommandsToAntigravity (fs : FS) (sourceDir targetDir : Str)
    (filenames : List Str) (force dryRun : Bool) : FS × Except Str Nat :=
  if dryRun then (fs, .ok filenames.length)
  else exportGo sourceDir targetDir (ensureDir fs targetDir) filenames 0

/-! ## `QuickSyncService.run`

The orchestrator's collaborators (`SyncService`, `SkillExportService`,
`ExportRulesService`, `StateDetector`, `fs-extra` directory queries, and the
target registry `getCommandsSyncPresets` — the registry itself is outside
`src/`) are abstracted into an environment of functions that may fail, and
every interaction `run` makes with them is recorded in an event trace, in
program order.  `result.errors` collects the stringified caught exceptions
exactly as the `catch` blocks push them. -/

/-- Arguments `run` passes to `SyncService.run`. -/
structure SyncArgs where
  source : Str
  preset : Option Str
  target : Option (List Str)
  force : Option Bool
  dryRun : Option Bool
deriving DecidableEq

/-- Arguments `run` passes to `SkillExportService.run`. -/
structure SkillArgs where
  preset : Option Str
  targets : Option (List Str)
  force : Option Bool
  dryRun : Option Bool
  includeBuiltIn : Bool
deriving DecidableEq

/-- Arguments `run` passes to `ExportRulesService.run`. -/
structure RulesArgs where
  source : Str
  preset : Option Str
  targets : Option (List Str)
  force : Option Bool
  dryRun : Option Bool
deriving DecidableEq

/-- `StateDetector.detect()` output: whether `state === 'outdated'` and the
`details.daysBehind` field. -/
structure DetectOut where
  outdated : Bool
  daysBehind : Option Nat
deriving DecidableEq

/-- Trace of the observable actions of one `run` invocation: one `...Pass`
marker per pass whose guard admits it (the `startSpinner` point), plus one
event per collaborator call, carrying the arguments passed. -/
inductive Event where
  | agentsPass
  | skillsPass
  | commandsPass
  | docsExportPass
  | docsCheckPass
  | agentsSync (a : SyncArgs)
  | skillsExport (a : SkillArgs)
  | commandsSync (a : SyncArgs)
  | commandsAntigravity (targetDir : Str) (files : List Str)
  | rulesExport (a : RulesArgs)
  | detectCall
deriving DecidableEq

/-- Environment of collaborators.  `commandsPresets` models
`getCommandsSyncPresets()` — code not under `src/`; per the spec's Target
Registry it is a static mapping from target key to destination path,
represented as an association list in key order. -/
structure Env where
  pathExists : Str → Bool
  readdir : Str → Except Str (List Str)
  syncRun : SyncArgs → Except Str Unit
  skillExportRun : SkillArgs → Except Str Nat
  exportRulesRun : RulesArgs → Except Str Unit
  detect : Str → Except Str DetectOut
  commandsPresets : List (Str × Str)

/-- `QuickSyncOptions` (the fields the modelled control flow reads; `verbose`
and `llmConfig` only affect logging and the out-of-scope docs regeneration). -/
structure RunOptions where
  skipAgents : Bool := false
  skipSkills : Bool := false
  skipDocs : Bool := false
  skipCommands : Bool := false
  force : Option Bool := none
  dryRun : Option Bool := none
  agentTargets : Option (List Str) := none
  skillTargets : Option (List Str) := none
  docTargets : Option (List Str) := none
  commandTargets : Option (List Str) := none

/-- `QuickSyncResult`. -/
structure QuickSyncResult where
  agentsSynced : Nat
  skillsExported : Nat
  commandsSynced : Nat
  docsUpdated : Bool
  errors : List Str
deriving DecidableEq

/-- JS property lookup `commandsPresets[id]` (first binding wins). -/
def assocLookup (k : Str) : List (Str × Str) → Option Str
  | [] => none
  | (k2, v) :: rest => if k2 = k then some v else assocLookup k rest

/-- `path.join(absolutePath, '.context', sub)`. -/
def contextPath (root sub : Str) : Str :=
  pathJoin (pathJoin root (str ".context")) sub

/-- JS `f.endsWith('.md')`. -/
def endsWithMd (s : Str) : Bool :=
  match s.reverse with
  | 'd' :: 'm' :: '.' :: _ => true
  | _ => false

/-- The `hasCustomTargets` test the source repeats per pass:
`options.xTargets && options.xTargets.length > 0`. -/
def hasCustomTargets (o : Option (List Str)) : Bool :=
  match o with
  | some (_ :: _) => true
  | _ => false

/-- The `SyncService.run` arguments of the agents pass. -/
def agentsArgs (root : Str) (opts : RunOptions) : SyncArgs :=
  { source := contextPath root (str "agents")
    preset := if hasCustomTargets opts.agentTargets then none else some (str "all")
    target := if hasCustomTargets opts.agentTargets then opts.agentTargets else none
    force := opts.force
    dryRun := opts.dryRun }

/-- Step 1 of `run`: sync agents.  Returns (events, caught errors,
`agentsSynced`). -/
def agentsStep (env : Env) (root : Str) (opts : RunOptions) :
    List Event × List Str × Nat :=
  if opts.skipAgents then ([], [], 0)
  else if opts.agentTargets = some [] then ([], [], 0)
  else
    let agentsPath := contextPath root (str "agents")
    if env.pathExists agentsPath then
      match env.syncRun (agentsArgs root opts) with
      | .error e => ([.agentsPass, .agentsSync (agentsArgs root opts)], [e], 0)
      | .ok _ =>
        match env.readdir agentsPath with
        | .error e => ([.agentsPass, .agentsSync (agentsArgs root opts)], [e], 0)
        | .ok files =>
          ([.agentsPass, .agentsSync (agentsArgs root opts)], [],
            (files.filter endsWithMd).length)
    else ([.agentsPass], [], 0)

/-- The `SkillExportService.run` arguments of the skills pass. -/
def skillsArgs (opts : RunOptions) : SkillArgs :=
  { preset := if hasCustomTargets opts.skillTargets then none else some (str "all")
    targets := if hasCustomTargets opts.skillTargets then opts.skillTargets else none
    force := opts.force
    dryRun := opts.dryRun
    includeBuiltIn := true }

/-- Step 2 of `run`: export skills.  Returns (events, caught errors,
`skillsExported`). -/
def skillsStep (env : Env) (root : Str) (opts : RunOptions) :
    List Event × List Str × Nat :=
  if opts.skipSkills then ([], [], 0)
  else if opts.skillTargets = some [] then ([], [], 0)
  else
    let skillsPath := contextPath root (str "skills")
    if env.pathExists skillsPath then
      match env.skillExportRun (skillsArgs opts) with
      | .error e => ([.skillsPass, .skillsExport (skillsArgs opts)], [e], 0)
      | .ok n => ([.skillsPass, .skillsExport (skillsArgs opts)], [], n)
    else ([.skillsPass], [], 0)

/-- The antigravity branch at the end of the commands pass: invoked after the
generic sync succeeded; sets `commandsSynced` to the number of command files
unless the export throws. -/
def antigravitySub (fs : FS) (commandsPath : Str) (antigravityPath : Option Str)
    (commandFiles : List Str) (opts : RunOptions) (evs : List Event) :
    List Event × List Str × Nat × FS :=
  match antigravityPath, commandFiles with
  | some ap, _ :: _ =>
    let out := exportCommandsToAntigravity fs commandsPath ap commandFiles
        (opts.force.getD false) (opts.dryRun.getD false)
    match out.2 with
    | .error e => (evs ++ [.commandsAntigravity ap commandFiles], [e], 0, out.1)
    | .ok _ => (evs ++ [.commandsAntigravity ap commandFiles], [], commandFiles.length, out.1)
  | _, _ => (evs, [], commandFiles.length, fs)

/-- Step 3 of `run`: sync commands.  Returns (events, caught errors,
`commandsSynced`, filesystem after the antigravity export). -/
def commandsStep (env : Env) (root : Str) (opts : RunOptions) (fs : FS) :
    List Event × List Str × Nat × FS :=
  if opts.skipCommands then ([], [], 0, fs)
  else if opts.commandTargets = some [] then ([], [], 0, fs)
  else
    let commandsPath := contextPath root (str "commands")
    if env.pathExists commandsPath then
      let targetIds : List Str :=
        if hasCustomTargets opts.commandTargets then opts.commandTargets.getD []
        else env.commandsPresets.map Prod.fst
      let antigravityPath : Option Str :=
        match assocLookup (str "antigravity") env.commandsPresets with
        | some p => if (str "antigravity") ∈ targetIds then some (pathResolve root p) else none
        | none => none
      let otherTargetIds := targetIds.filter (fun i => decide (i ≠ str "antigravity"))
      let otherTargetPaths :=
        (otherTargetIds.filterMap (fun i => assocLookup i env.commandsPresets)).map (pathResolve root)
      match env.readdir commandsPath with
      | .error e => ([.commandsPass], [e], 0, fs)
      | .ok entries =>
        let commandFiles := entries.filter endsWithMd
        match otherTargetPaths with
        | [] => antigravitySub fs commandsPath antigravityPath commandFiles opts [.commandsPass]
        | p :: ps =>
          let args : SyncArgs :=
            { source := commandsPath
              preset := none
              target := some (p :: ps)
              force := opts.force
              dryRun := opts.dryRun }
          match env.syncRun args with
          | .error e => ([.commandsPass, .commandsSync args], [e], 0, fs)
          | .ok _ =>
            antigravitySub fs commandsPath antigravityPath commandFiles opts
              [.commandsPass, .commandsSync args]
    else ([.commandsPass], [], 0, fs)

/-- The `ExportRulesService.run` arguments of the docs-rules pass. -/
def rulesArgs (root : Str) (opts : RunOptions) : RulesArgs :=
  { source := contextPath root (str "docs")
    preset := if hasCustomTargets opts.docTargets then none else some (str "all")
    targets := if hasCustomTargets opts.docTargets then opts.docTargets else none
    force := opts.force
    dryRun := opts.dryRun }

/-- Step 4 of `run`: export docs/rules.  Returns (events, caught errors). -/
def docsExportStep (env : Env) (root : Str) (opts : RunOptions) :
    List Event × List Str :=
  if opts.skipDocs then ([], [])
  else if opts.docTargets = some [] then ([], [])
  else
    let docsPath := contextPath root (str "docs")
    if env.pathExists docsPath then
      match env.exportRulesRun (rulesArgs root opts) with
      | .error e => ([.docsExportPass, .rulesExport (rulesArgs root opts)], [e])
      | .ok _ => ([.docsExportPass, .rulesExport (rulesArgs root opts)], [])
    else ([.docsExportPass], [])

/-- Step 5 of `run`: the docs freshness check.  Guarded only by `skipDocs`;
`docsUpdated` is true unless the detector reports `outdated` with a truthy
(nonzero, defined) `daysBehind`.  Returns (events, caught errors,
`docsUpdated`). -/
def docsCheckStep (env : Env) (root : Str) (opts : RunOptions) :
    List Event × List Str × Bool :=
  if opts.skipDocs then ([], [], false)
  else
    match env.detect root with
    | .error e => ([.docsCheckPass, .detectCall], [e], false)
    | .ok d =>
      let daysTruthy : Bool :=
        match d.daysBehind with
        | some n => decide (n ≠ 0)
        | none => false
      if d.outdated && daysTruthy then ([.docsCheckPass, .detectCall], [], false)
      else ([.docsCheckPass, .detectCall], [], true)

/-- Output of one `run` invocation: the returned result, the event trace, and
the final filesystem. -/
structure RunOut where
  result : QuickSyncResult
  trace : List Event
  fs : FS

namespace QuickSyncService

/-- `QuickSyncService.run`: the five sequential, individually caught steps
(agents, skills, commands, docs export, docs freshness check).  The model is
total: every collaborator failure is consumed by the step's catch, so a
result is always produced. -/
def run (env : Env) (repoPath : Str) (opts : RunOptions) (fs0 : FS) : RunOut :=
  let root := repoPath
  let s1 := agentsStep env root opts
  let s2 := skillsStep env root opts
  let s3 := commandsStep env root opts fs0
  let s4 := docsExportStep env root opts
  let s5 := docsCheckStep env root opts
  { result :=
      { agentsSynced := s1.2.2
        skillsExported := s2.2.2
        commandsSynced := s3.2.2.1
        docsUpdated := s5.2.2
        errors := s1.2.1 ++ s2.2.1 ++ s3.2.1 ++ s4.2 ++ s5.2.1 }
    trace := s1.1 ++ s2.1 ++ s3.1 ++ s4.1 ++ s5.1
    fs := s3.2.2.2 }

end QuickSyncService

/-! ## Basic facts about the string primitives -/

theorem jsTrim_eq_self {l : Str} (hh : ∀ c ∈ l.head?, jsIsWS c = false)
    (hl : ∀ c ∈ l.getLast?, jsIsWS c = false) : jsTrim l = l := by
  unfold jsTrim
  have h1 : l.dropWhile jsIsWS = l := by
    cases l with
    | nil => rfl
    | cons a t =>
      have := hh a rfl
      rw [List.dropWhile_cons_of_neg (by simp [this])]
  rw [h1]
  have h2 : l.reverse.dropWhile jsIsWS = l.reverse := by
    cases hr : l.reverse with
    | nil => rfl
    | cons a t =>
      have ha : l.getLast? = some a := by
        rw [← List.head?_reverse, hr]; rfl
      have := hl a ha
      rw [List.dropWhile_cons_of_neg (by simp [this])]
  rw [h2, List.reverse_reverse]

theorem jsTrim_getLast_not_ws (s : Str) : ∀ c ∈ (jsTrim s).getLast?, jsIsWS c = false := by
  intro c hc
  unfold jsTrim at hc
  rw [List.getLast?_reverse] at hc
  have h := List.head?_dropWhile_not jsIsWS ((s.dropWhile jsIsWS).reverse)
  rw [Option.mem_def] at hc
  rw [hc] at h
  exact h

theorem jsTrim_head_not_ws (s : Str) : ∀ c ∈ (jsTrim s).head?, jsIsWS c = false := by
  intro c hc
  unfold jsTrim at hc
  rw [List.head?_reverse] at hc
  rw [Option.mem_def] at hc
  have hY : ((s.dropWhile jsIsWS).reverse).getLast? = some c := by
    conv_lhs => rw [← List.takeWhile_append_dropWhile (p := jsIsWS) (l := (s.dropWhile jsIsWS).reverse)]
    rw [List.getLast?_append, hc]
    rfl
  rw [List.getLast?_reverse] at hY
  have h := List.head?_dropWhile_not jsIsWS s
  rw [hY] at h
  exact h

theorem jsTrim_idem (s : Str) : jsTrim (jsTrim s) = jsTrim s := by
  by_cases h : jsTrim s = []
  · rw [h]; rfl
  · exact jsTrim_eq_self (jsTrim_head_not_ws s) (jsTrim_getLast_not_ws s)

theorem jsTrim_append_nl {B : Str} (hB : B ≠ []) (hh : ∀ c ∈ B.head?, jsIsWS c = false)
    (hl : ∀ c ∈ B.getLast?, jsIsWS c = false) : jsTrim (B ++ ['\n']) = B := by
  unfold jsTrim
  have h1 : (B ++ ['\n']).dropWhile jsIsWS = B ++ ['\n'] := by
    cases B with
    | nil => exact absurd rfl hB
    | cons a t =>
      have := hh a rfl
      rw [List.cons_append, List.dropWhile_cons_of_neg (by simp [this])]
  rw [h1, List.reverse_append]
  have h2 : (['\n'].reverse ++ B.reverse).dropWhile jsIsWS = B.reverse.dropWhile jsIsWS := by
    simp [List.dropWhile_cons_of_pos, jsIsWS]
  rw [h2]
  have h3 : B.reverse.dropWhile jsIsWS = B.reverse := by
    cases hr : B.reverse with
    | nil => rfl
    | cons a t =>
      have ha : B.getLast? = some a := by rw [← List.head?_reverse, hr]; rfl
      have := hl a ha
      rw [List.dropWhile_cons_of_neg (by simp [this])]
  rw [h3, List.reverse_reverse]

/-! ## C8: filename convention -/

/-- Characters a valid kebab-case base name may contain. -/
def kebabChars : Str := str "abcdefghijklmnopqrstuvwxyz0123456789-"

theorem kebab_char_fix : ∀ c ∈ kebabChars,
    jsToLower (if c = '-' then '_' else c) = (if c = '-' then '_' else c) := by decide

/-- C8: for every kebab-case source filename `base.md`, `toAntigravityFilename`
replaces each `-` of the base with `_`, leaves the (already lowercase) base
otherwise unchanged, and preserves a single `.md` extension. -/
theorem kebab_map_lower (base : Str) (h : ∀ c ∈ base, c ∈ kebabChars) :
    (base.map (fun c => if c = '-' then '_' else c)).map jsToLower =
      base.map (fun c => if c = '-' then '_' else c) := by
  induction base with
  | nil => rfl
  | cons a t ih =>
    simp only [List.map_cons, List.cons.injEq]
    exact ⟨kebab_char_fix a (h a (by simp)), ih (fun c hc => h c (by simp [hc]))⟩

theorem toAntigravityFilename_kebab (base : Str) (h : ∀ c ∈ base, c ∈ kebabChars) :
    toAntigravityFilename (base ++ str ".md") =
      base.map (fun c => if c = '-' then '_' else c) ++ str ".md" := by
  have hrev : (base ++ str ".md").reverse = 'd' :: 'm' :: '.' :: base.reverse := by
    rw [List.reverse_append]
    rfl
  have hstrip : stripMdExt (base ++ str ".md") = base := by
    unfold stripMdExt
    rw [hrev]
    simp
  show ((stripMdExt (base ++ str ".md")).map (fun c => if c = '-' then '_' else c)).map jsToLower
      ++ str ".md" =
    base.map (fun c => if c = '-' then '_' else c) ++ str ".md"
  rw [hstrip, kebab_map_lower base h]

theorem toAntigravityFilename_kebab_witness :
    (∀ c ∈ str "x-y-z", c ∈ kebabChars) ∧
    toAntigravityFilename (str "x-y-z.md") = str "x_y_z.md" := by
  refine ⟨by decide, ?_⟩
  have h := toAntigravityFilename_kebab (str "x-y-z") (by decide)
  rw [show (str "x-y-z") ++ str ".md" = str "x-y-z.md" by decide] at h
  rw [h]
  decide

/-! ## C2: front-matter stripping is not restricted to a leading block -/

/-- C2 evidence: on an input with no leading front-matter but a later
`---`-delimited section, the transform deletes that later section.  The
claim (and the code comment) say only a leading block is stripped; the
`m`-flag regex `/^---[\s\S]*?---\s*/m` matches at any line start. -/
theorem replaceFM_removes_nonleading_block :
    replaceFM (str "intro\n---\nsep\n---\ntail") = str "intro\ntail" ∧
    toAntigravityWorkflowContent (str "intro\n---\nsep\n---\ntail") =
      str "---\ndescription: intro\n---\n\n1. intro\n   tail\n" :=
  ⟨by decide, by decide⟩

/-! ## Membership facts for trim and collapse -/

theorem mem_dropWhile_of_not {p : Char → Bool} {c : Char} {l : Str}
    (hm : c ∈ l) (hc : p c = false) : c ∈ l.dropWhile p := by
  induction l with
  | nil => cases hm
  | cons a t ih =>
    by_cases ha : p a
    · rw [List.dropWhile_cons_of_pos ha]
      rcases List.mem_cons.mp hm with rfl | hmem
      · rw [hc] at ha; cases ha
      · exact ih hmem
    · rwa [List.dropWhile_cons_of_neg ha]

theorem jsTrim_mem {c : Char} {l : Str} (hm : c ∈ l) (hc : jsIsWS c = false) :
    c ∈ jsTrim l := by
  unfold jsTrim
  rw [List.mem_reverse]
  exact mem_dropWhile_of_not (List.mem_reverse.mpr (mem_dropWhile_of_not hm hc)) hc

theorem mem_of_mem_jsTrim {c : Char} {l : Str} (hm : c ∈ jsTrim l) : c ∈ l := by
  unfold jsTrim at hm
  rw [List.mem_reverse] at hm
  have h1 := (List.dropWhile_sublist (l := (l.dropWhile jsIsWS).reverse) (p := jsIsWS)).mem hm
  rw [List.mem_reverse] at h1
  exact (List.dropWhile_sublist (l := l) (p := jsIsWS)).mem h1

theorem mem_collapseGo {c : Char} {l : Str} {b : Bool} (hm : c ∈ l)
    (hc : jsIsWS c = false) : c ∈ collapseGo b l := by
  induction l generalizing b with
  | nil => cases hm
  | cons a t ih =>
    unfold collapseGo
    by_cases ha : jsIsWS a
    · rcases List.mem_cons.mp hm with rfl | hmem
      · rw [hc] at ha; cases ha
      · simp only [ha, if_true]
        cases b <;> simp [ih hmem]
    · rcases List.mem_cons.mp hm with rfl | hmem
      · simp [ha]
      · simp [ha, ih hmem]

theorem mem_collapseGo_elim {c : Char} {l : Str} {b : Bool} (hm : c ∈ collapseGo b l) :
    c = ' ' ∨ (c ∈ l ∧ jsIsWS c = false) := by
  induction l generalizing b with
  | nil => cases hm
  | cons a t ih =>
    unfold collapseGo at hm
    by_cases ha : jsIsWS a
    · simp only [ha, if_true] at hm
      have hm2 : c ∈ collapseGo true t ∨ c = ' ' := by
        cases b with
        | true => exact Or.inl hm
        | false =>
          rcases List.mem_cons.mp hm with rfl | h
          · exact Or.inr rfl
          · exact Or.inl h
      rcases hm2 with h | rfl
      · rcases ih h with h1 | ⟨h1, h2⟩
        · exact Or.inl h1
        · exact Or.inr ⟨List.mem_cons_of_mem _ h1, h2⟩
      · exact Or.inl rfl
    · simp only [ha, if_false] at hm
      rcases List.mem_cons.mp hm with rfl | hmem
      · exact Or.inr ⟨List.mem_cons_self _ _, by simpa using ha⟩
      · rcases ih hmem with h | ⟨h1, h2⟩
        · exact Or.inl h
        · exact Or.inr ⟨List.mem_cons_of_mem _ h1, h2⟩

/-! ## The heading regex on trimmed input -/

theorem scanAux_suffix {f : Str → Option Str} {t h : Str}
    (hs : scanAux f t = some h) : ∃ u, u <:+ t ∧ f u = some h := by
  induction t with
  | nil => cases hs
  | cons a rest ih =>
    unfold scanAux at hs
    by_cases ha : a = '\n'
    · rw [if_pos ha] at hs
      cases hf : f rest with
      | some h2 =>
        simp only [hf] at hs
        exact ⟨rest, List.suffix_cons a rest, by rw [hf, hs]⟩
      | none =>
        simp only [hf] at hs
        obtain ⟨u, hu1, hu2⟩ := ih hs
        exact ⟨u, hu1.trans (List.suffix_cons a rest), hu2⟩
    · rw [if_neg ha] at hs
      obtain ⟨u, hu1, hu2⟩ := ih hs
      exact ⟨u, hu1.trans (List.suffix_cons a rest), hu2⟩

theorem findHeading_suffix {t h : Str} (hf : findHeading t = some h) :
    ∃ u, u <:+ t ∧ headingAt u = some h := by
  unfold findHeading at hf
  cases hh : headingAt t with
  | some h2 =>
    simp only [hh] at hf
    exact ⟨t, List.suffix_refl t, by rw [hh, hf]⟩
  | none =>
    simp only [hh] at hf
    exact scanAux_suffix hf

theorem headingAt_capture {u h : Str} (hu : headingAt u = some h)
    (hlast : ∀ c ∈ u.getLast?, jsIsWS c = false) :
    ∃ a ∈ h, jsIsWS a = false := by
  rcases u with _ | ⟨x, _ | ⟨c, rest⟩⟩
  · simp [headingAt] at hu
  · simp [headingAt] at hu
  · unfold headingAt at hu
    by_cases hx : x = '#' ∧ jsIsWS c = true
    · simp only [if_pos hx] at hu
      cases hd : (c :: rest).dropWhile jsIsWS with
      | nil =>
        exfalso
        simp only [hd] at hu
        have hall : ∀ y ∈ c :: rest, jsIsWS y := List.dropWhile_eq_nil_iff.mp hd
        have hne : (c :: rest) ≠ [] := by simp
        have hgl : (x :: c :: rest).getLast? = some ((c :: rest).getLast hne) := by
          rw [List.getLast?_eq_getLast_of_ne_nil (by simp)]
          exact congrArg some (List.getLast_cons hne)
        have hws := hlast _ hgl
        rw [hall _ (List.getLast_mem hne)] at hws
        cases hws
      | cons a tail =>
        simp only [hd] at hu
        have ha : jsIsWS a = false := by
          have hw := List.head?_dropWhile_not jsIsWS (c :: rest)
          rw [hd] at hw
          exact hw
        have hne : a ≠ '\n' := by
          intro e
          rw [e] at ha
          simp [jsIsWS] at ha
        refine ⟨a, ?_, ha⟩
        have hh : h = (a :: tail).takeWhile (fun y => decide (y ≠ '\n')) :=
          (Option.some.injEq _ _ ▸ hu).symm
        rw [hh, List.takeWhile_cons_of_pos (by simpa using hne)]
        exact List.mem_cons_self _ _
    · simp only [if_neg hx] at hu
      cases hu

/-- On input with no trailing whitespace (in particular `jsTrim` output),
a successful heading capture contains a non-whitespace character. -/
theorem findHeading_capture {t h : Str} (hf : findHeading t = some h)
    (hlast : ∀ c ∈ t.getLast?, jsIsWS c = false) :
    ∃ a ∈ h, jsIsWS a = false := by
  obtain ⟨u, hu1, hu2⟩ := findHeading_suffix hf
  refine headingAt_capture hu2 ?_
  intro c hc
  rcases hu1 with ⟨p, rfl⟩
  rw [Option.mem_def] at hc
  refine hlast c ?_
  rw [Option.mem_def, List.getLast?_append, hc]
  rfl

/-! ## Facts about `deriveDescription` -/

theorem jsTrim_ne_nil_of_mem {c : Char} {l : Str} (hm : c ∈ l) (hc : jsIsWS c = false) :
    jsTrim l ≠ [] :=
  List.ne_nil_of_mem (jsTrim_mem hm hc)

theorem deriveCleaned_ne_nil {fl : Str} (h : ∃ a ∈ fl, jsIsWS a = false) :
    deriveCleaned fl ≠ [] := by
  obtain ⟨a, ham, haw⟩ := h
  exact jsTrim_ne_nil_of_mem (mem_collapseGo ham haw) haw

theorem deriveFirstLine_has_sub (s : Str) :
    ∃ a ∈ deriveFirstLine (jsTrim s), jsIsWS a = false := by
  unfold deriveFirstLine
  cases hf : findHeading (jsTrim s) with
  | some h =>
    simp only [hf]
    obtain ⟨a, ham, haw⟩ := findHeading_capture hf (jsTrim_getLast_not_ws s)
    exact ⟨a, jsTrim_mem ham haw, haw⟩
  | none =>
    simp only [hf]
    by_cases ht : jsTrim ((splitNl (jsTrim s)).headI) = []
    · rw [if_pos ht]
      exact ⟨'W', by decide, by decide⟩
    · rw [if_neg ht]
      cases hh : jsTrim ((splitNl (jsTrim s)).headI) with
      | nil => exact absurd hh ht
      | cons a tl =>
        have hws := jsTrim_head_not_ws ((splitNl (jsTrim s)).headI)
        rw [hh] at hws
        exact ⟨a, by simp [hh], hws a rfl⟩

theorem deriveCleaned_derive_ne_nil (s : Str) :
    deriveCleaned (deriveFirstLine (jsTrim s)) ≠ [] :=
  deriveCleaned_ne_nil (deriveFirstLine_has_sub s)

theorem deriveCleaned_no_nl (fl : Str) : '\n' ∉ deriveCleaned fl := by
  intro hm
  have h1 := mem_of_mem_jsTrim hm
  rcases mem_collapseGo_elim h1 with h | ⟨_, h2⟩
  · exact absurd h (by decide)
  · simp [jsIsWS] at h2

theorem deriveDescription_length_le (s : Str) :
    (deriveDescription s).length ≤ DESCRIPTION_MAX_LENGTH := by
  unfold deriveDescription
  by_cases h : (deriveCleaned (deriveFirstLine (jsTrim s))).length ≤ DESCRIPTION_MAX_LENGTH
  · rw [if_pos h]; exact h
  · rw [if_neg h]
    push_neg at h
    have h3 : (str "...").length = 3 := by decide
    rw [List.length_append, List.length_take, h3]
    unfold DESCRIPTION_MAX_LENGTH at h ⊢
    omega

theorem deriveDescription_no_nl (s : Str) : '\n' ∉ deriveDescription s := by
  unfold deriveDescription
  by_cases h : (deriveCleaned (deriveFirstLine (jsTrim s))).length ≤ DESCRIPTION_MAX_LENGTH
  · rw [if_pos h]; exact deriveCleaned_no_nl _
  · rw [if_neg h]
    intro hm
    rcases List.mem_append.mp hm with hm1 | hm2
    · exact deriveCleaned_no_nl _ (List.mem_of_mem_take hm1)
    · exact absurd hm2 (by decide)

theorem deriveDescription_ne_nil (s : Str) : deriveDescription s ≠ [] := by
  unfold deriveDescription
  by_cases h : (deriveCleaned (deriveFirstLine (jsTrim s))).length ≤ DESCRIPTION_MAX_LENGTH
  · rw [if_pos h]; exact deriveCleaned_derive_ne_nil s
  · rw [if_neg h]
    intro hc
    exact absurd (List.append_eq_nil.mp hc).2 (by decide)

theorem mapNl_eq_self {d : Str} (h : '\n' ∉ d) : mapNl d = d := by
  unfold mapNl
  induction d with
  | nil => rfl
  | cons a t ih =>
    simp only [List.map_cons]
    have ha : a ≠ '\n' := fun e => h (e ▸ List.mem_cons_self _ _)
    rw [if_neg ha, ih (fun hm => h (List.mem_cons_of_mem _ hm))]

/-- The default-options `finalDescription` is just `deriveDescription`. -/
theorem finalDescription_default (s : Str) :
    finalDescription s {} = deriveDescription s := by
  unfold finalDescription workflowDescription
  simp only
  rw [if_neg]
  push_neg
  exact deriveDescription_length_le s

/-! ## Claim C3: derived description and truncation -/

/-- C3: the description is the cleaned heading-or-first-line (whitespace
collapsed); when that cleaned string fits in 250 characters the result equals
it exactly, and when it exceeds 250 the result has length exactly 250 and
ends in `...`; the result never exceeds 250 characters. -/
theorem deriveDescription_spec (s : Str) :
    (deriveDescription s).length ≤ DESCRIPTION_MAX_LENGTH ∧
    ((deriveCleaned (deriveFirstLine (jsTrim s))).length ≤ DESCRIPTION_MAX_LENGTH →
      deriveDescription s = deriveCleaned (deriveFirstLine (jsTrim s))) ∧
    (DESCRIPTION_MAX_LENGTH < (deriveCleaned (deriveFirstLine (jsTrim s))).length →
      (deriveDescription s).length = DESCRIPTION_MAX_LENGTH ∧
      ∃ t, deriveDescription s = t ++ str "...") := by
  refine ⟨deriveDescription_length_le s, ?_, ?_⟩
  · intro h
    unfold deriveDescription
    rw [if_pos h]
  · intro h
    have hn : ¬ (deriveCleaned (deriveFirstLine (jsTrim s))).length ≤ DESCRIPTION_MAX_LENGTH := by
      omega
    constructor
    · unfold deriveDescription
      rw [if_neg hn]
      have h3 : (str "...").length = 3 := by decide
      rw [List.length_append, List.length_take, h3]
      unfold DESCRIPTION_MAX_LENGTH at h ⊢
      omega
    · refine ⟨(deriveCleaned (deriveFirstLine (jsTrim s))).take (DESCRIPTION_MAX_LENGTH - 3), ?_⟩
      unfold deriveDescription
      rw [if_neg hn]

set_option maxRecDepth 4000 in
theorem deriveDescription_spec_witness :
    DESCRIPTION_MAX_LENGTH <
      (deriveCleaned (deriveFirstLine (jsTrim (List.replicate 260 'a')))).length ∧
    (deriveDescription (List.replicate 260 'a')).length = DESCRIPTION_MAX_LENGTH ∧
    (∃ t, deriveDescription (List.replicate 260 'a') = t ++ str "...") ∧
    deriveDescription (str "# Short title\nbody") = str "Short title" := by
  have h := (deriveDescription_spec (List.replicate 260 'a')).2.2 (by decide)
  have h2 := (deriveDescription_spec (str "# Short title\nbody")).2.1 (by decide)
  exact ⟨by decide, h.1, h.2, by rw [h2]; decide⟩

/-! ## Claim C10: whitespace-only input and the non-empty fallback -/

theorem jsTrim_all_ws {s : Str} (h : ∀ c ∈ s, jsIsWS c = true) : jsTrim s = [] := by
  unfold jsTrim
  have h1 : s.dropWhile jsIsWS = [] := List.dropWhile_eq_nil_iff.mpr (by simpa using h)
  rw [h1]
  rfl

/-- C10: on whitespace-only (or empty) input the derived description is the
`'Workflow'` fallback, and the derived description is never empty, so the
emitted front-matter always carries a non-empty description value. -/
theorem deriveDescription_nonempty (s : Str) :
    ((∀ c ∈ s, jsIsWS c = true) → deriveDescription s = str "Workflow") ∧
    deriveDescription s ≠ [] := by
  constructor
  · intro h
    unfold deriveDescription
    rw [jsTrim_all_ws h]
    decide
  · exact deriveDescription_ne_nil s

theorem deriveDescription_nonempty_witness :
    deriveDescription (str "  \n ") = str "Workflow" ∧
    deriveDescription (str "  \n ") ≠ [] :=
  ⟨(deriveDescription_nonempty (str "  \n ")).1 (by decide),
   (deriveDescription_nonempty (str "  \n ")).2⟩

/-! ## Claim C5: skip-on-exists and force semantics of `generateCommands` -/

/-- C5: with `force=false` a predefined command file is written only when
absent — an existing destination file keeps its content and is reported in
`skipped`, not `generated`; when absent it is written with the template's
seeded content and reported in `generated`.  With `force=true` it is always
(over)written with the seeded content (`content.trimEnd() + '\n'`). -/
theorem generateCommands_skip_force (fs : DirFS) (cmd : CommandTemplate)
    (hmem : cmd ∈ PREDEFINED_COMMANDS) :
    (∀ c, fs cmd.filename = some c →
      (generateCommands fs false).fs cmd.filename = some c ∧
      cmd.filename ∈ (generateCommands fs false).skipped ∧
      cmd.filename ∉ (generateCommands fs false).generated) ∧
    (fs cmd.filename = none →
      (generateCommands fs false).fs cmd.filename = some (seedContent cmd) ∧
      cmd.filename ∈ (generateCommands fs false).generated ∧
      cmd.filename ∉ (generateCommands fs false).skipped) ∧
    ((generateCommands fs true).fs cmd.filename = some (seedContent cmd) ∧
      cmd.filename ∈ (generateCommands fs true).generated ∧
      cmd.filename ∉ (generateCommands fs true).skipped) := by
  have hc : cmd = { filename := str "init-mcp-only.md", content := initMcpOnlyContent } := by
    simpa [PREDEFINED_COMMANDS] using hmem
  subst hc
  refine ⟨?_, ?_, ?_⟩
  · intro c hfs
    simp [generateCommands, generateCommandsGo, PREDEFINED_COMMANDS, hfs]
  · intro hfs
    simp [generateCommands, generateCommandsGo, PREDEFINED_COMMANDS, hfs, dirWrite]
  · simp [generateCommands, generateCommandsGo, PREDEFINED_COMMANDS, dirWrite]

theorem generateCommands_skip_force_witness :
    ((fun n => if n = str "init-mcp-only.md" then some (str "old") else none) : DirFS)
        (str "init-mcp-only.md") = some (str "old") ∧
    (generateCommands
        (fun n => if n = str "init-mcp-only.md" then some (str "old") else none) false).fs
      (str "init-mcp-only.md") = some (str "old") ∧
    str "init-mcp-only.md" ∈ (generateCommands
        (fun n => if n = str "init-mcp-only.md" then some (str "old") else none) false).skipped ∧
    (generateCommands (fun _ => none) true).fs (str "init-mcp-only.md") =
      some (seedContent { filename := str "init-mcp-only.md", content := initMcpOnlyContent }) := by
  have h := generateCommands_skip_force
    (fun n => if n = str "init-mcp-only.md" then some (str "old") else none)
    { filename := str "init-mcp-only.md", content := initMcpOnlyContent }
    (List.mem_cons_self _ _)
  have h2 := generateCommands_skip_force (fun _ => none)
    { filename := str "init-mcp-only.md", content := initMcpOnlyContent }
    (List.mem_cons_self _ _)
  have hfs : ((fun n => if n = str "init-mcp-only.md" then some (str "old") else none) : DirFS)
      (str "init-mcp-only.md") = some (str "old") := by simp
  exact ⟨hfs, (h.1 _ hfs).1, (h.1 _ hfs).2.1, h2.2.2.1⟩

/-! ## Claim C4: dry-run of the commands export -/

theorem exportGo_ok (sourceDir targetDir : Str) (filenames : List Str) :
    ∀ (fs : FS) (n : Nat),
      (∀ f ∈ filenames, (fs.files (pathJoin sourceDir f)).isSome = true) →
      ∃ fs2, exportGo sourceDir targetDir fs filenames n = (fs2, .ok (n + filenames.length)) := by
  induction filenames with
  | nil =>
    intro fs n _
    exact ⟨fs, by simp [exportGo]⟩
  | cons f rest ih =>
    intro fs n h
    have hf := h f (List.mem_cons_self _ _)
    cases hc : fs.files (pathJoin sourceDir f) with
    | none => rw [hc] at hf; cases hf
    | some content =>
      unfold exportGo
      rw [hc]
      have hrest : ∀ g ∈ rest,
          ((fsWrite fs (pathJoin targetDir (toAntigravityFilename f))
            (toAntigravityWorkflowContent content)).files (pathJoin sourceDir g)).isSome = true := by
        intro g hg
        unfold fsWrite
        by_cases he : pathJoin sourceDir g = pathJoin targetDir (toAntigravityFilename f)
        · simp [he]
        · simp only [if_neg he]
          exact h g (List.mem_cons_of_mem _ hg)
      obtain ⟨fs2, h2⟩ := ih _ (n + 1) hrest
      have harith : n + 1 + rest.length = n + (f :: rest).length := by
        simp [List.length_cons]
        omega
      rw [harith] at h2
      exact ⟨fs2, h2⟩

/-- C4: with `dryRun=true` the commands export touches nothing — no file and
no directory is created (the filesystem is returned unchanged) — and the
reported count equals the count a `dryRun=false` run returns on the same
inputs (whenever that run can read every listed source file). -/
theorem exportCommandsToAntigravity_dryRun (fs : FS) (sourceDir targetDir : Str)
    (filenames : List Str) (force : Bool) :
    exportCommandsToAntigravity fs sourceDir targetDir filenames force true
      = (fs, .ok filenames.length) ∧
    ((∀ f ∈ filenames, (fs.files (pathJoin sourceDir f)).isSome = true) →
      ∃ fs2, exportCommandsToAntigravity fs sourceDir targetDir filenames force false
        = (fs2, .ok filenames.length)) := by
  constructor
  · unfold exportCommandsToAntigravity
    rw [if_pos rfl]
  · intro h
    unfold exportCommandsToAntigravity
    rw [if_neg (by simp)]
    have h2 : ∀ f ∈ filenames,
        ((ensureDir fs targetDir).files (pathJoin sourceDir f)).isSome = true := by
      intro f hf
      exact h f hf
    obtain ⟨fs2, hgo⟩ := exportGo_ok sourceDir targetDir filenames (ensureDir fs targetDir) 0 h2
    rw [Nat.zero_add] at hgo
    exact ⟨fs2, hgo⟩

theorem exportCommandsToAntigravity_dryRun_witness :
    exportCommandsToAntigravity
      { files := fun p => if p = pathJoin (str "cmds") (str "a.md") then some (str "hi") else none
        dirs := fun _ => false }
      (str "cmds") (str "wf") [str "a.md"] false true
      = ({ files := fun p => if p = pathJoin (str "cmds") (str "a.md") then some (str "hi") else none
           dirs := fun _ => false }, .ok 1) ∧
    ∃ fs2, exportCommandsToAntigravity
      { files := fun p => if p = pathJoin (str "cmds") (str "a.md") then some (str "hi") else none
        dirs := fun _ => false }
      (str "cmds") (str "wf") [str "a.md"] false false = (fs2, .ok 1) := by
  have h := exportCommandsToAntigravity_dryRun
    { files := fun p => if p = pathJoin (str "cmds") (str "a.md") then some (str "hi") else none
      dirs := fun _ => false }
    (str "cmds") (str "wf") [str "a.md"] false
  exact ⟨h.1, h.2 (by intro f hf; simp at hf; subst hf; simp)⟩

/-! ## Per-step trace characterizations for `run` -/

theorem agentsStep_shape (env : Env) (root : Str) (opts : RunOptions) :
    ∀ e ∈ (agentsStep env root opts).1,
      e = .agentsPass ∨ ∃ a, e = .agentsSync a := by
  intro e he
  simp only [agentsStep] at he
  repeat' split at he
  all_goals simp_all
  all_goals tauto

theorem agentsStep_pass_iff (env : Env) (root : Str) (opts : RunOptions) :
    Event.agentsPass ∈ (agentsStep env root opts).1 ↔
      (opts.skipAgents = false ∧ opts.agentTargets ≠ some []) := by
  simp only [agentsStep]
  repeat' split
  all_goals simp_all

theorem agentsStep_pass_count (env : Env) (root : Str) (opts : RunOptions) :
    (agentsStep env root opts).1.count .agentsPass =
      if opts.skipAgents = false ∧ opts.agentTargets ≠ some [] then 1 else 0 := by
  simp only [agentsStep]
  repeat' split
  all_goals simp_all [List.count_cons]

theorem agentsStep_sync_mem (env : Env) (root : Str) (opts : RunOptions)
    (h1 : opts.skipAgents = false) (h2 : opts.agentTargets ≠ some [])
    (h3 : env.pathExists (contextPath root (str "agents")) = true) :
    Event.agentsSync (agentsArgs root opts) ∈ (agentsStep env root opts).1 := by
  simp only [agentsStep, h1, h3]
  repeat' split
  all_goals simp_all

theorem agentsStep_err_mem (env : Env) (root : Str) (opts : RunOptions) {msg : Str}
    (h1 : opts.skipAgents = false) (h2 : opts.agentTargets ≠ some [])
    (h3 : env.pathExists (contextPath root (str "agents")) = true)
    (h4 : env.syncRun (agentsArgs root opts) = .error msg) :
    msg ∈ (agentsStep env root opts).2.1 := by
  simp only [agentsStep, h1, h3, h4]
  repeat' split
  all_goals simp_all

theorem skillsStep_shape (env : Env) (root : Str) (opts : RunOptions) :
    ∀ e ∈ (skillsStep env root opts).1,
      e = .skillsPass ∨ ∃ a, e = .skillsExport a := by
  intro e he
  simp only [skillsStep] at he
  repeat' split at he
  all_goals simp_all
  all_goals tauto

theorem skillsStep_pass_iff (env : Env) (root : Str) (opts : RunOptions) :
    Event.skillsPass ∈ (skillsStep env root opts).1 ↔
      (opts.skipSkills = false ∧ opts.skillTargets ≠ some []) := by
  simp only [skillsStep]
  repeat' split
  all_goals simp_all

theorem skillsStep_pass_count (env : Env) (root : Str) (opts : RunOptions) :
    (skillsStep env root opts).1.count .skillsPass =
      if opts.skipSkills = false ∧ opts.skillTargets ≠ some [] then 1 else 0 := by
  simp only [skillsStep]
  repeat' split
  all_goals simp_all [List.count_cons]

theorem skillsStep_export_mem (env : Env) (root : Str) (opts : RunOptions)
    (h1 : opts.skipSkills = false) (h2 : opts.skillTargets ≠ some [])
    (h3 : env.pathExists (contextPath root (str "skills")) = true) :
    Event.skillsExport (skillsArgs opts) ∈ (skillsStep env root opts).1 := by
  simp only [skillsStep, h1, h3]
  repeat' split
  all_goals simp_all

theorem skillsStep_err_mem (env : Env) (root : Str) (opts : RunOptions) {msg : Str}
    (h1 : opts.skipSkills = false) (h2 : opts.skillTargets ≠ some [])
    (h3 : env.pathExists (contextPath root (str "skills")) = true)
    (h4 : env.skillExportRun (skillsArgs opts) = .error msg) :
    msg ∈ (skillsStep env root opts).2.1 := by
  simp only [skillsStep, h1, h3, h4]
  repeat' split
  all_goals simp_all

theorem antigravitySub_shape (fs : FS) (cp : Str) (ap : Option Str)
    (cf : List Str) (opts : RunOptions) (evs : List Event) :
    ∀ e ∈ (antigravitySub fs cp ap cf opts evs).1,
      e ∈ evs ∨ ∃ d f, e = .commandsAntigravity d f := by
  intro e he
  simp only [antigravitySub] at he
  repeat' split at he
  all_goals simp_all
  all_goals tauto

theorem antigravitySub_mem_evs (fs : FS) (cp : Str) (ap : Option Str)
    (cf : List Str) (opts : RunOptions) (evs : List Event) (e : Event) (he : e ∈ evs) :
    e ∈ (antigravitySub fs cp ap cf opts evs).1 := by
  simp only [antigravitySub]
  repeat' split
  all_goals simp_all

theorem antigravitySub_pass_count (fs : FS) (cp : Str) (ap : Option Str)
    (cf : List Str) (opts : RunOptions) (evs : List Event) :
    (antigravitySub fs cp ap cf opts evs).1.count .commandsPass = evs.count .commandsPass := by
  simp only [antigravitySub]
  repeat' split
  all_goals simp [List.count_append]

theorem commandsStep_shape (env : Env) (root : Str) (opts : RunOptions) (fs : FS) :
    ∀ e ∈ (commandsStep env root opts fs).1,
      e = .commandsPass ∨ (∃ a, e = .commandsSync a) ∨ ∃ d f, e = .commandsAntigravity d f := by
  intro e he
  simp only [commandsStep] at he
  repeat' split at he
  all_goals
    first
    | exact absurd he (List.not_mem_nil _)
    | (rcases antigravitySub_shape _ _ _ _ _ _ e he with h | ⟨d, f, rfl⟩
       · simp at h
         first
         | (obtain rfl | rfl := h
            · exact Or.inl rfl
            · exact Or.inr (Or.inl ⟨_, rfl⟩))
         | (obtain rfl := h; exact Or.inl rfl)
       · exact Or.inr (Or.inr ⟨d, f, rfl⟩))
    | (rcases List.mem_cons.mp he with rfl | he2
       · exact Or.inl rfl
       · first
         | exact absurd he2 (List.not_mem_nil _)
         | (rcases List.mem_cons.mp he2 with rfl | he3
            · exact Or.inr (Or.inl ⟨_, rfl⟩)
            · exact absurd he3 (List.not_mem_nil _)))

theorem commandsStep_pass_iff (env : Env) (root : Str) (opts : RunOptions) (fs : FS) :
    Event.commandsPass ∈ (commandsStep env root opts fs).1 ↔
      (opts.skipCommands = false ∧ opts.commandTargets ≠ some []) := by
  simp only [commandsStep]
  repeat' split
  all_goals
    first
    | (constructor
       · intro hmem
         simp_all
       · intro hg
         exact antigravitySub_mem_evs _ _ _ _ _ _ _ (by simp))
    | simp_all

theorem commandsStep_pass_count (env : Env) (root : Str) (opts : RunOptions) (fs : FS) :
    (commandsStep env root opts fs).1.count .commandsPass =
      if opts.skipCommands = false ∧ opts.commandTargets ≠ some [] then 1 else 0 := by
  simp only [commandsStep]
  repeat' split
  all_goals
    first
    | (rw [antigravitySub_pass_count]; simp_all [List.count_cons])
    | simp_all [List.count_cons]

theorem commandsStep_err_mem (env : Env) (root : Str) (opts : RunOptions) (fs : FS) {msg : Str}
    (h1 : opts.skipCommands = false) (h2 : opts.commandTargets ≠ some [])
    (h3 : env.pathExists (contextPath root (str "commands")) = true)
    (h4 : env.readdir (contextPath root (str "commands")) = .error msg) :
    msg ∈ (commandsStep env root opts fs).2.1 := by
  simp only [commandsStep, h1, h3, h4]
  repeat' split
  all_goals simp_all

theorem docsExportStep_shape (env : Env) (root : Str) (opts : RunOptions) :
    ∀ e ∈ (docsExportStep env root opts).1,
      e = .docsExportPass ∨ ∃ a, e = .rulesExport a := by
  intro e he
  simp only [docsExportStep] at he
  repeat' split at he
  all_goals simp_all
  all_goals tauto

theorem docsExportStep_pass_iff (env : Env) (root : Str) (opts : RunOptions) :
    Event.docsExportPass ∈ (docsExportStep env root opts).1 ↔
      (opts.skipDocs = false ∧ opts.docTargets ≠ some []) := by
  simp only [docsExportStep]
  repeat' split
  all_goals simp_all

theorem docsExportStep_pass_count (env : Env) (root : Str) (opts : RunOptions) :
    (docsExportStep env root opts).1.count .docsExportPass =
      if opts.skipDocs = false ∧ opts.docTargets ≠ some [] then 1 else 0 := by
  simp only [docsExportStep]
  repeat' split
  all_goals simp_all [List.count_cons]

theorem docsExportStep_rules_mem (env : Env) (root : Str) (opts : RunOptions)
    (h1 : opts.skipDocs = false) (h2 : opts.docTargets ≠ some [])
    (h3 : env.pathExists (contextPath root (str "docs")) = true) :
    Event.rulesExport (rulesArgs root opts) ∈ (docsExportStep env root opts).1 := by
  simp only [docsExportStep, h1, h3]
  repeat' split
  all_goals simp_all

theorem docsExportStep_err_mem (env : Env) (root : Str) (opts : RunOptions) {msg : Str}
    (h1 : opts.skipDocs = false) (h2 : opts.docTargets ≠ some [])
    (h3 : env.pathExists (contextPath root (str "docs")) = true)
    (h4 : env.exportRulesRun (rulesArgs root opts) = .error msg) :
    msg ∈ (docsExportStep env root opts).2 := by
  simp only [docsExportStep, h1, h3, h4]
  repeat' split
  all_goals simp_all

theorem docsCheckStep_shape (env : Env) (root : Str) (opts : RunOptions) :
    ∀ e ∈ (docsCheckStep env root opts).1,
      e = .docsCheckPass ∨ e = .detectCall := by
  intro e he
  simp only [docsCheckStep] at he
  repeat' split at he
  all_goals simp_all

theorem docsCheckStep_pass_iff (env : Env) (root : Str) (opts : RunOptions) :
    Event.docsCheckPass ∈ (docsCheckStep env root opts).1 ↔ opts.skipDocs = false := by
  simp only [docsCheckStep]
  repeat' split
  all_goals simp_all

theorem docsCheckStep_pass_count (env : Env) (root : Str) (opts : RunOptions) :
    (docsCheckStep env root opts).1.count .docsCheckPass =
      if opts.skipDocs = false then 1 else 0 := by
  simp only [docsCheckStep]
  repeat' split
  all_goals simp_all [List.count_cons]

theorem docsCheckStep_err_mem (env : Env) (root : Str) (opts : RunOptions) {msg : Str}
    (h1 : opts.skipDocs = false) (h4 : env.detect root = .error msg) :
    msg ∈ (docsCheckStep env root opts).2.1 := by
  simp only [docsCheckStep, h1, h4]
  repeat' split
  all_goals simp_all

/-! ## Claim C6: pass skipping and target-list semantics of `run` -/

theorem run_trace (env : Env) (root : Str) (opts : RunOptions) (fs0 : FS) :
    (QuickSyncService.run env root opts fs0).trace =
      (agentsStep env root opts).1 ++ (skillsStep env root opts).1 ++
      (commandsStep env root opts fs0).1 ++ (docsExportStep env root opts).1 ++
      (docsCheckStep env root opts).1 := rfl

theorem run_errors (env : Env) (root : Str) (opts : RunOptions) (fs0 : FS) :
    (QuickSyncService.run env root opts fs0).result.errors =
      (agentsStep env root opts).2.1 ++ (skillsStep env root opts).2.1 ++
      (commandsStep env root opts fs0).2.1 ++ (docsExportStep env root opts).2 ++
      (docsCheckStep env root opts).2.1 := rfl

/-- C6 counterexample: with `docTargets = []` (and `skipDocs` unset), the
docs-freshness-check pass still executes — the detector is consulted and the
check's spinner step is entered — so the claim that every one of the four
passes (including docs-freshness-check) is skipped by an explicitly empty
target list is false: only the docs-rules-export step consults `docTargets`. -/
theorem run_docsCheck_ignores_empty_docTargets :
    ({ docTargets := some [] } : RunOptions).docTargets = some [] ∧
    ({ docTargets := some [] } : RunOptions).skipDocs = false ∧
    Event.docsCheckPass ∈ (QuickSyncService.run
      { pathExists := fun _ => false
        readdir := fun _ => .ok []
        syncRun := fun _ => .ok ()
        skillExportRun := fun _ => .ok 0
        exportRulesRun := fun _ => .ok ()
        detect := fun _ => .ok { outdated := false, daysBehind := none }
        commandsPresets := [] }
      (str "proj") { docTargets := some [] }
      { files := fun _ => none, dirs := fun _ => false }).trace ∧
    Event.detectCall ∈ (QuickSyncService.run
      { pathExists := fun _ => false
        readdir := fun _ => .ok []
        syncRun := fun _ => .ok ()
        skillExportRun := fun _ => .ok 0
        exportRulesRun := fun _ => .ok ()
        detect := fun _ => .ok { outdated := false, daysBehind := none }
        commandsPresets := [] }
      (str "proj") { docTargets := some [] }
      { files := fun _ => none, dirs := fun _ => false }).trace := by
  refine ⟨rfl, rfl, ?_, ?_⟩ <;>
    simp [run_trace, agentsStep, skillsStep, commandsStep, docsExportStep, docsCheckStep]

/-- C6 (amended): the agents, skills, commands, and docs-rules-export passes
are each skipped when their target-list option is the explicitly empty array
and entered when the skip flag is unset and the list is not the empty array;
when the list is absent the agents/skills/docs-rules services are invoked
with the full default preset `'all'` (explicit targets `undefined`).  The
docs-freshness-check, however, is governed solely by `skipDocs` — it runs
even when `docTargets` is the empty array.  Empty array and undefined are
thus treated differently for the four target-driven passes, but not for the
freshness check. -/
theorem run_target_selection (env : Env) (root : Str) (opts : RunOptions) (fs0 : FS) :
    (opts.agentTargets = some [] →
      Event.agentsPass ∉ (QuickSyncService.run env root opts fs0).trace) ∧
    (opts.skipAgents = false → opts.agentTargets ≠ some [] →
      Event.agentsPass ∈ (QuickSyncService.run env root opts fs0).trace) ∧
    (opts.skipAgents = false → opts.agentTargets = none →
      env.pathExists (contextPath root (str "agents")) = true →
      Event.agentsSync (agentsArgs root opts) ∈ (QuickSyncService.run env root opts fs0).trace ∧
      (agentsArgs root opts).preset = some (str "all") ∧
      (agentsArgs root opts).target = none) ∧
    (opts.skillTargets = some [] →
      Event.skillsPass ∉ (QuickSyncService.run env root opts fs0).trace) ∧
    (opts.skipSkills = false → opts.skillTargets ≠ some [] →
      Event.skillsPass ∈ (QuickSyncService.run env root opts fs0).trace) ∧
    (opts.skipSkills = false → opts.skillTargets = none →
      env.pathExists (contextPath root (str "skills")) = true →
      Event.skillsExport (skillsArgs opts) ∈ (QuickSyncService.run env root opts fs0).trace ∧
      (skillsArgs opts).preset = some (str "all") ∧
      (skillsArgs opts).targets = none) ∧
    (opts.commandTargets = some [] →
      Event.commandsPass ∉ (QuickSyncService.run env root opts fs0).trace) ∧
    (opts.skipCommands = false → opts.commandTargets ≠ some [] →
      Event.commandsPass ∈ (QuickSyncService.run env root opts fs0).trace) ∧
    (opts.docTargets = some [] →
      Event.docsExportPass ∉ (QuickSyncService.run env root opts fs0).trace) ∧
    (opts.skipDocs = false → opts.docTargets ≠ some [] →
      Event.docsExportPass ∈ (QuickSyncService.run env root opts fs0).trace) ∧
    (opts.skipDocs = false → opts.docTargets = none →
      env.pathExists (contextPath root (str "docs")) = true →
      Event.rulesExport (rulesArgs root opts) ∈ (QuickSyncService.run env root opts fs0).trace ∧
      (rulesArgs root opts).preset = some (str "all") ∧
      (rulesArgs root opts).targets = none) ∧
    (opts.skipDocs = false →
      Event.docsCheckPass ∈ (QuickSyncService.run env root opts fs0).trace) ∧
    (opts.skipDocs = true →
      Event.docsCheckPass ∉ (QuickSyncService.run env root opts fs0).trace) := by
  refine ⟨?_, ?_, ?_, ?_, ?_, ?_, ?_, ?_, ?_, ?_, ?_, ?_, ?_⟩
  · intro h0 hmem
    rw [run_trace] at hmem
    simp only [List.mem_append] at hmem
    rcases hmem with (((h | h) | h) | h) | h
    · exact absurd ((agentsStep_pass_iff env root opts).mp h).2 (by simp [h0])
    · rcases skillsStep_shape env root opts _ h with h1 | ⟨a, h1⟩ <;> cases h1
    · rcases commandsStep_shape env root opts fs0 _ h with h1 | h1
      · cases h1
      · rcases h1 with ⟨a, h1⟩ | ⟨d, f, h1⟩ <;> cases h1
    · rcases docsExportStep_shape env root opts _ h with h1 | ⟨a, h1⟩ <;> cases h1
    · rcases docsCheckStep_shape env root opts _ h with h1 | h1 <;> cases h1
  · intro h1 h2
    rw [run_trace]
    simp only [List.mem_append]
    exact Or.inl (Or.inl (Or.inl (Or.inl ((agentsStep_pass_iff env root opts).mpr ⟨h1, h2⟩))))
  · intro h1 h2 h3
    refine ⟨?_, by simp [agentsArgs, hasCustomTargets, h2], by simp [agentsArgs, hasCustomTargets, h2]⟩
    rw [run_trace]
    simp only [List.mem_append]
    exact Or.inl (Or.inl (Or.inl (Or.inl
      (agentsStep_sync_mem env root opts h1 (by simp [h2]) h3))))
  · intro h0 hmem
    rw [run_trace] at hmem
    simp only [List.mem_append] at hmem
    rcases hmem with (((h | h) | h) | h) | h
    · rcases agentsStep_shape env root opts _ h with h1 | ⟨a, h1⟩ <;> cases h1
    · exact absurd ((skillsStep_pass_iff env root opts).mp h).2 (by simp [h0])
    · rcases commandsStep_shape env root opts fs0 _ h with h1 | h1
      · cases h1
      · rcases h1 with ⟨a, h1⟩ | ⟨d, f, h1⟩ <;> cases h1
    · rcases docsExportStep_shape env root opts _ h with h1 | ⟨a, h1⟩ <;> cases h1
    · rcases docsCheckStep_shape env root opts _ h with h1 | h1 <;> cases h1
  · intro h1 h2
    rw [run_trace]
    simp only [List.mem_append]
    exact Or.inl (Or.inl (Or.inl (Or.inr ((skillsStep_pass_iff env root opts).mpr ⟨h1, h2⟩))))
  · intro h1 h2 h3
    refine ⟨?_, by simp [skillsArgs, hasCustomTargets, h2], by simp [skillsArgs, hasCustomTargets, h2]⟩
    rw [run_trace]
    simp only [List.mem_append]
    exact Or.inl (Or.inl (Or.inl (Or.inr
      (skillsStep_export_mem env root opts h1 (by simp [h2]) h3))))
  · intro h0 hmem
    rw [run_trace] at hmem
    simp only [List.mem_append] at hmem
    rcases hmem with (((h | h) | h) | h) | h
    · rcases agentsStep_shape env root opts _ h with h1 | ⟨a, h1⟩ <;> cases h1
    · rcases skillsStep_shape env root opts _ h with h1 | ⟨a, h1⟩ <;> cases h1
    · exact absurd ((commandsStep_pass_iff env root opts fs0).mp h).2 (by simp [h0])
    · rcases docsExportStep_shape env root opts _ h with h1 | ⟨a, h1⟩ <;> cases h1
    · rcases docsCheckStep_shape env root opts _ h with h1 | h1 <;> cases h1
  · intro h1 h2
    rw [run_trace]
    simp only [List.mem_append]
    exact Or.inl (Or.inl (Or.inr ((commandsStep_pass_iff env root opts fs0).mpr ⟨h1, h2⟩)))
  · intro h0 hmem
    rw [run_trace] at hmem
    simp only [List.mem_append] at hmem
    rcases hmem with (((h | h) | h) | h) | h
    · rcases agentsStep_shape env root opts _ h with h1 | ⟨a, h1⟩ <;> cases h1
    · rcases skillsStep_shape env root opts _ h with h1 | ⟨a, h1⟩ <;> cases h1
    · rcases commandsStep_shape env root opts fs0 _ h with h1 | h1
      · cases h1
      · rcases h1 with ⟨a, h1⟩ | ⟨d, f, h1⟩ <;> cases h1
    · exact absurd ((docsExportStep_pass_iff env root opts).mp h).2 (by simp [h0])
    · rcases docsCheckStep_shape env root opts _ h with h1 | h1 <;> cases h1
  · intro h1 h2
    rw [run_trace]
    simp only [List.mem_append]
    exact Or.inl (Or.inr ((docsExportStep_pass_iff env root opts).mpr ⟨h1, h2⟩))
  · intro h1 h2 h3
    refine ⟨?_, by simp [rulesArgs, hasCustomTargets, h2], by simp [rulesArgs, hasCustomTargets, h2]⟩
    rw [run_trace]
    simp only [List.mem_append]
    exact Or.inl (Or.inr (docsExportStep_rules_mem env root opts h1 (by simp [h2]) h3))
  · intro h1
    rw [run_trace]
    simp only [List.mem_append]
    exact Or.inr ((docsCheckStep_pass_iff env root opts).mpr h1)
  · intro h0 hmem
    rw [run_trace] at hmem
    simp only [List.mem_append] at hmem
    rcases hmem with (((h | h) | h) | h) | h
    · rcases agentsStep_shape env root opts _ h with h1 | ⟨a, h1⟩ <;> cases h1
    · rcases skillsStep_shape env root opts _ h with h1 | ⟨a, h1⟩ <;> cases h1
    · rcases commandsStep_shape env root opts fs0 _ h with h1 | h1
      · cases h1
      · rcases h1 with ⟨a, h1⟩ | ⟨d, f, h1⟩ <;> cases h1
    · rcases docsExportStep_shape env root opts _ h with h1 | ⟨a, h1⟩ <;> cases h1
    · exact absurd ((docsCheckStep_pass_iff env root opts).mp h) (by simp [h0])

/-- A benign environment for concrete runs: every directory exists, every
collaborator succeeds, and the registry carries the two command targets. -/
def envOk : Env :=
  { pathExists := fun _ => true
    readdir := fun _ => .ok []
    syncRun := fun _ => .ok ()
    skillExportRun := fun _ => .ok 0
    exportRulesRun := fun _ => .ok ()
    detect := fun _ => .ok { outdated := false, daysBehind := none }
    commandsPresets := [(str "cursor", str ".cursor/commands"),
                        (str "antigravity", str ".agent/workflows")] }

/-- The empty filesystem. -/
def fsEmpty : FS := { files := fun _ => none, dirs := fun _ => false }

theorem run_target_selection_witness :
    Event.agentsPass ∉
      (QuickSyncService.run envOk (str "p") { agentTargets := some [] } fsEmpty).trace ∧
    Event.agentsSync (agentsArgs (str "p") {}) ∈
      (QuickSyncService.run envOk (str "p") {} fsEmpty).trace ∧
    (agentsArgs (str "p") {}).preset = some (str "all") ∧
    Event.docsCheckPass ∈
      (QuickSyncService.run envOk (str "p") { docTargets := some [] } fsEmpty).trace := by
  have h1 := (run_target_selection envOk (str "p") { agentTargets := some [] } fsEmpty).1 rfl
  have h2 := (run_target_selection envOk (str "p") {} fsEmpty).2.2.1 rfl rfl rfl
  have h3 := (run_target_selection envOk (str "p")
    { docTargets := some [] } fsEmpty).2.2.2.2.2.2.2.2.2.2.2.1 rfl
  exact ⟨h1, h2.1, h2.2.1, h3⟩

/-! ## Claim C7: per-pass exception isolation and aggregation -/

theorem count_zero_of_ne {l : List Event} {x : Event}
    (h : ∀ e ∈ l, e ≠ x) : l.count x = 0 :=
  List.count_eq_zero.mpr (fun hm => (h x hm) rfl)

/-- C7: whether each pass runs is a function of the options alone — each pass
marker occurs in the trace exactly once when its guard admits it and never
otherwise, independently of any collaborator failure in earlier passes (all
passes are attempted exactly once per invocation); an exception raised inside
any pass (agents sync, skills export, commands readdir, rules export, docs
detect) is caught, its message appended to the shared `errors` list of the
aggregate result; and a result is always returned — the model of `run` is a
total function because every collaborator call sits under its step's catch. -/
theorem run_error_isolation (env : Env) (root : Str) (opts : RunOptions) (fs0 : FS) :
    ((QuickSyncService.run env root opts fs0).trace.count .agentsPass =
      if opts.skipAgents = false ∧ opts.agentTargets ≠ some [] then 1 else 0) ∧
    ((QuickSyncService.run env root opts fs0).trace.count .skillsPass =
      if opts.skipSkills = false ∧ opts.skillTargets ≠ some [] then 1 else 0) ∧
    ((QuickSyncService.run env root opts fs0).trace.count .commandsPass =
      if opts.skipCommands = false ∧ opts.commandTargets ≠ some [] then 1 else 0) ∧
    ((QuickSyncService.run env root opts fs0).trace.count .docsExportPass =
      if opts.skipDocs = false ∧ opts.docTargets ≠ some [] then 1 else 0) ∧
    ((QuickSyncService.run env root opts fs0).trace.count .docsCheckPass =
      if opts.skipDocs = false then 1 else 0) ∧
    (∀ msg, opts.skipAgents = false → opts.agentTargets ≠ some [] →
      env.pathExists (contextPath root (str "agents")) = true →
      env.syncRun (agentsArgs root opts) = .error msg →
      msg ∈ (QuickSyncService.run env root opts fs0).result.errors) ∧
    (∀ msg, opts.skipSkills = false → opts.skillTargets ≠ some [] →
      env.pathExists (contextPath root (str "skills")) = true →
      env.skillExportRun (skillsArgs opts) = .error msg →
      msg ∈ (QuickSyncService.run env root opts fs0).result.errors) ∧
    (∀ msg, opts.skipCommands = false → opts.commandTargets ≠ some [] →
      env.pathExists (contextPath root (str "commands")) = true →
      env.readdir (contextPath root (str "commands")) = .error msg →
      msg ∈ (QuickSyncService.run env root opts fs0).result.errors) ∧
    (∀ msg, opts.skipDocs = false → opts.docTargets ≠ some [] →
      env.pathExists (contextPath root (str "docs")) = true →
      env.exportRulesRun (rulesArgs root opts) = .error msg →
      msg ∈ (QuickSyncService.run env root opts fs0).result.errors) ∧
    (∀ msg, opts.skipDocs = false → env.detect root = .error msg →
      msg ∈ (QuickSyncService.run env root opts fs0).result.errors) := by
  have za : ∀ x : Event, (∀ e ∈ (agentsStep env root opts).1,
      e = .agentsPass ∨ ∃ a, e = .agentsSync a) := fun _ => agentsStep_shape env root opts
  refine ⟨?_, ?_, ?_, ?_, ?_, ?_, ?_, ?_, ?_, ?_⟩
  · rw [run_trace]
    simp only [List.count_append]
    rw [agentsStep_pass_count,
      count_zero_of_ne (fun e he => by
        rcases skillsStep_shape env root opts e he with rfl | ⟨a, rfl⟩ <;> simp),
      count_zero_of_ne (fun e he => by
        rcases commandsStep_shape env root opts fs0 e he with rfl | ⟨a, rfl⟩ | ⟨d, f, rfl⟩ <;> simp),
      count_zero_of_ne (fun e he => by
        rcases docsExportStep_shape env root opts e he with rfl | ⟨a, rfl⟩ <;> simp),
      count_zero_of_ne (fun e he => by
        rcases docsCheckStep_shape env root opts e he with rfl | rfl <;> simp)]
    omega
  · rw [run_trace]
    simp only [List.count_append]
    rw [skillsStep_pass_count,
      count_zero_of_ne (fun e he => by
        rcases agentsStep_shape env root opts e he with rfl | ⟨a, rfl⟩ <;> simp),
      count_zero_of_ne (fun e he => by
        rcases commandsStep_shape env root opts fs0 e he with rfl | ⟨a, rfl⟩ | ⟨d, f, rfl⟩ <;> simp),
      count_zero_of_ne (fun e he => by
        rcases docsExportStep_shape env root opts e he with rfl | ⟨a, rfl⟩ <;> simp),
      count_zero_of_ne (fun e he => by
        rcases docsCheckStep_shape env root opts e he with rfl | rfl <;> simp)]
    omega
  · rw [run_trace]
    simp only [List.count_append]
    rw [commandsStep_pass_count,
      count_zero_of_ne (fun e he => by
        rcases agentsStep_shape env root opts e he with rfl | ⟨a, rfl⟩ <;> simp),
      count_zero_of_ne (fun e he => by
        rcases skillsStep_shape env root opts e he with rfl | ⟨a, rfl⟩ <;> simp),
      count_zero_of_ne (fun e he => by
        rcases docsExportStep_shape env root opts e he with rfl | ⟨a, rfl⟩ <;> simp),
      count_zero_of_ne (fun e he => by
        rcases docsCheckStep_shape env root opts e he with rfl | rfl <;> simp)]
    omega
  · rw [run_trace]
    simp only [List.count_append]
    rw [docsExportStep_pass_count,
      count_zero_of_ne (fun e he => by
        rcases agentsStep_shape env root opts e he with rfl | ⟨a, rfl⟩ <;> simp),
      count_zero_of_ne (fun e he => by
        rcases skillsStep_shape env root opts e he with rfl | ⟨a, rfl⟩ <;> simp),
      count_zero_of_ne (fun e he => by
        rcases commandsStep_shape env root opts fs0 e he with rfl | ⟨a, rfl⟩ | ⟨d, f, rfl⟩ <;> simp),
      count_zero_of_ne (fun e he => by
        rcases docsCheckStep_shape env root opts e he with rfl | rfl <;> simp)]
    omega
  · rw [run_trace]
    simp only [List.count_append]
    rw [docsCheckStep_pass_count,
      count_zero_of_ne (fun e he => by
        rcases agentsStep_shape env root opts e he with rfl | ⟨a, rfl⟩ <;> simp),
      count_zero_of_ne (fun e he => by
        rcases skillsStep_shape env root opts e he with rfl | ⟨a, rfl⟩ <;> simp),
      count_zero_of_ne (fun e he => by
        rcases commandsStep_shape env root opts fs0 e he with rfl | ⟨a, rfl⟩ | ⟨d, f, rfl⟩ <;> simp),
      count_zero_of_ne (fun e he => by
        rcases docsExportStep_shape env root opts e he with rfl | ⟨a, rfl⟩ <;> simp)]
    omega
  · intro msg h1 h2 h3 h4
    rw [run_errors]
    simp only [List.mem_append]
    exact Or.inl (Or.inl (Or.inl (Or.inl (agentsStep_err_mem env root opts h1 h2 h3 h4))))
  · intro msg h1 h2 h3 h4
    rw [run_errors]
    simp only [List.mem_append]
    exact Or.inl (Or.inl (Or.inl (Or.inr (skillsStep_err_mem env root opts h1 h2 h3 h4))))
  · intro msg h1 h2 h3 h4
    rw [run_errors]
    simp only [List.mem_append]
    exact Or.inl (Or.inl (Or.inr (commandsStep_err_mem env root opts fs0 h1 h2 h3 h4)))
  · intro msg h1 h2 h3 h4
    rw [run_errors]
    simp only [List.mem_append]
    exact Or.inl (Or.inr (docsExportStep_err_mem env root opts h1 h2 h3 h4))
  · intro msg h1 h2
    rw [run_errors]
    simp only [List.mem_append]
    exact Or.inr (docsCheckStep_err_mem env root opts h1 h2)

/-- `envOk` with a failing agents `SyncService.run`. -/
def envBoom : Env := { envOk with syncRun := fun _ => .error (str "boom") }

theorem run_error_isolation_witness :
    (QuickSyncService.run envBoom (str "p") {} fsEmpty).trace.count .skillsPass = 1 ∧
    (QuickSyncService.run envBoom (str "p") {} fsEmpty).trace.count .docsCheckPass = 1 ∧
    str "boom" ∈ (QuickSyncService.run envBoom (str "p") {} fsEmpty).result.errors := by
  have h := run_error_isolation envBoom (str "p") {} fsEmpty
  refine ⟨?_, ?_, h.2.2.2.2.2.1 (str "boom") rfl (by simp) rfl rfl⟩
  · simpa using h.2.1
  · simpa using h.2.2.2.2.1

/-! ## Claim C9: `ensureSteps` -/

/-- Stated from the claim's words: a line starting with one or more digits
followed by a period and a space (`<digits>. `). -/
def specLineNumbered (l : Str) : Bool :=
  decide (l.takeWhile Char.isDigit ≠ []) &&
    match l.drop (l.takeWhile Char.isDigit).length with
    | d :: c :: _ => d = '.' && c = ' '
    | _ => false

/-- Stated from the claim's words: does some line of the body start with
digits followed by `. `? -/
def specHasNumberedLine (body : Str) : Bool :=
  (splitNl body).any specLineNumbered

/-- C9 counterexample: `"1. a\n"` contains the numbered line `"1. a"`, so by
the claim the body should be returned verbatim; `ensureSteps` instead
returns the trimmed body `"1. a"`. -/
theorem ensureSteps_not_verbatim :
    specHasNumberedLine (str "1. a\n") = true ∧
    ensureSteps (str "1. a\n") ≠ str "1. a\n" ∧
    ensureSteps (str "1. a\n") = str "1. a" :=
  ⟨by decide, by decide, by decide⟩

/-- The numbered-item test on one line of the (trimmed) body: digits, a
period, then either a whitespace character inside the line or — when the
line is not the last one — the line break itself serving as the `\s`. -/
def lineNumbered (l : Str) (more : Bool) : Bool :=
  decide (l.takeWhile Char.isDigit ≠ []) &&
    match l.drop (l.takeWhile Char.isDigit).length with
    | d :: c :: _ => d = '.' && jsIsWS c
    | [d] => d = '.' && more
    | [] => false

/-- Line-by-line reading of the `/^\d+\.\s+/m` test. -/
def linesNumbered : List Str → Bool
  | [] => false
  | l :: ls => lineNumbered l (decide (ls ≠ [])) || linesNumbered ls

/-- Whether a character is not a newline (the `split(/\n/)` separator). -/
def nonNl (c : Char) : Bool := decide (c ≠ '\n')

theorem splitNl_ne_nil (s : Str) : splitNl s ≠ [] := by
  cases s with
  | nil => simp [splitNl]
  | cons c cs =>
    unfold splitNl
    split
    · simp
    · split <;> simp

theorem splitNl_headI (s : Str) : (splitNl s).headI = s.takeWhile nonNl := by
  induction s with
  | nil => rfl
  | cons c cs ih =>
    unfold splitNl
    by_cases hc : c = '\n'
    · rw [if_pos hc]
      subst hc
      rw [List.takeWhile_cons_of_neg (by simp [nonNl])]
      rfl
    · rw [if_neg hc]
      rw [List.takeWhile_cons_of_pos (by simp [nonNl, hc])]
      cases hs : splitNl cs with
      | nil => exact absurd hs (splitNl_ne_nil cs)
      | cons h tl =>
        rw [hs] at ih
        simp only [List.headI] at ih ⊢
        rw [ih]

theorem splitNl_tail_nil (s : Str) :
    ((splitNl s).tail = []) = (s.dropWhile nonNl = []) := by
  induction s with
  | nil => simp [splitNl, List.dropWhile]
  | cons c cs ih =>
    unfold splitNl
    by_cases hc : c = '\n'
    · rw [if_pos hc]
      subst hc
      rw [List.dropWhile_cons_of_neg (by simp [nonNl])]
      simp [splitNl_ne_nil cs]
    · rw [if_neg hc]
      rw [List.dropWhile_cons_of_pos (by simp [nonNl, hc])]
      cases hs : splitNl cs with
      | nil => exact absurd hs (splitNl_ne_nil cs)
      | cons h tl =>
        rw [hs] at ih
        simpa using ih

theorem takeWhile_digit_line (s : Str) :
    s.takeWhile Char.isDigit = (s.takeWhile nonNl).takeWhile Char.isDigit := by
  induction s with
  | nil => rfl
  | cons c cs ih =>
    by_cases hd : Char.isDigit c
    · have hn : nonNl c = true := by
        simp only [nonNl, decide_eq_true_eq]
        intro e
        rw [e] at hd
        simp [Char.isDigit] at hd
      rw [List.takeWhile_cons_of_pos hd, List.takeWhile_cons_of_pos hn,
        List.takeWhile_cons_of_pos hd, ih]
    · by_cases hn : nonNl c
      · rw [List.takeWhile_cons_of_neg hd, List.takeWhile_cons_of_pos hn,
          List.takeWhile_cons_of_neg hd]
      · rw [List.takeWhile_cons_of_neg hd, List.takeWhile_cons_of_neg hn]
        rfl

theorem length_takeWhile_le (p : Char → Bool) (l : Str) :
    (l.takeWhile p).length ≤ l.length := by
  induction l with
  | nil => simp
  | cons a t ih =>
    rw [List.takeWhile_cons]
    split
    · simpa using Nat.succ_le_succ ih
    · simp

theorem takeWhile_digit_append_nl (line rs : Str) :
    (line ++ '\n' :: rs).takeWhile Char.isDigit = line.takeWhile Char.isDigit := by
  induction line with
  | nil =>
    rw [List.nil_append, List.takeWhile_cons_of_neg (by decide)]
    rfl
  | cons c l ih =>
    by_cases hd : Char.isDigit c
    · rw [List.cons_append, List.takeWhile_cons_of_pos hd, List.takeWhile_cons_of_pos hd, ih]
    · rw [List.cons_append, List.takeWhile_cons_of_neg hd, List.takeWhile_cons_of_neg hd]

theorem numberedAt_split (line rest : Str)
    (hrest : ∀ c ∈ rest.head?, c = '\n') :
    numberedAt (line ++ rest) = lineNumbered line (decide (rest ≠ [])) := by
  cases rest with
  | nil =>
    rw [List.append_nil]
    unfold numberedAt lineNumbered
    generalize line.drop (line.takeWhile Char.isDigit).length = ld
    cases ld with
    | nil => rfl
    | cons d tl =>
      cases tl with
      | nil => simp
      | cons c2 tl2 => rfl
  | cons r rs =>
    have hrn : r = '\n' := hrest r rfl
    subst hrn
    unfold numberedAt lineNumbered
    rw [takeWhile_digit_append_nl]
    have hdr : (line ++ '\n' :: rs).drop (line.takeWhile Char.isDigit).length =
        line.drop (line.takeWhile Char.isDigit).length ++ '\n' :: rs :=
      List.drop_append_of_le_length (length_takeWhile_le _ _)
    rw [hdr]
    generalize line.drop (line.takeWhile Char.isDigit).length = ld
    cases ld with
    | nil =>
      rw [List.nil_append]
      cases rs with
      | nil => rfl
      | cons r2 rs2 =>
        have hne : decide (('\n' : Char) = '.') = false := rfl
        show (_ && (decide (('\n' : Char) = '.') && jsIsWS r2)) = _
        rw [hne]
        simp
    | cons d tl =>
      cases tl with
      | nil =>
        show (_ && (decide (d = '.') && jsIsWS '\n')) = (_ && (decide (d = '.') && _))
        rw [show jsIsWS '\n' = true from rfl,
          show decide (('\n' :: rs : Str) ≠ []) = true from rfl]
      | cons c2 tl2 => rfl

theorem numberedAt_line (s : Str) :
    numberedAt s = lineNumbered (s.takeWhile nonNl) (decide (s.dropWhile nonNl ≠ [])) := by
  have h := numberedAt_split (s.takeWhile nonNl) (s.dropWhile nonNl) ?_
  · rw [List.takeWhile_append_dropWhile] at h
    exact h
  · intro c hc
    have hw := List.head?_dropWhile_not nonNl s
    rw [Option.mem_def] at hc
    rw [hc] at hw
    simpa [nonNl] using hw

theorem splitNl_cons_ne {c : Char} (cs : Str) (hc : c ≠ '\n') :
    splitNl (c :: cs) = (c :: (splitNl cs).headI) :: (splitNl cs).tail := by
  conv_lhs => unfold splitNl
  rw [if_neg hc]
  cases hs : splitNl cs with
  | nil => exact absurd hs (splitNl_ne_nil cs)
  | cons h tl => simp

theorem lineNumbered_nil (m : Bool) : lineNumbered [] m = false := rfl

theorem linesNumbered_cons (l : Str) (ls : List Str) :
    linesNumbered (l :: ls) =
      (lineNumbered l (decide (ls ≠ [])) || linesNumbered ls) := rfl

theorem hasNumbered_lines (t : Str) :
    hasNumbered t = linesNumbered (splitNl t) ∧
    scanAuxB numberedAt t = linesNumbered ((splitNl t).tail) := by
  induction t with
  | nil => exact ⟨by decide, by decide⟩
  | cons c cs ih =>
    by_cases hc : c = '\n'
    · subst hc
      have e2 : scanAuxB numberedAt ('\n' :: cs) = hasNumbered cs := by
        conv_lhs => unfold scanAuxB
        rw [if_pos rfl]
        rfl
      have e3 : splitNl ('\n' :: cs) = [] :: splitNl cs := by
        conv_lhs => unfold splitNl
        rw [if_pos rfl]
      have hnum : numberedAt ('\n' :: cs) = false := by
        unfold numberedAt
        rw [List.takeWhile_cons_of_neg (by decide)]
        simp
      constructor
      · unfold hasNumbered
        rw [hnum, Bool.false_or, e2, ih.1, e3, linesNumbered_cons, lineNumbered_nil,
          Bool.false_or]
      · rw [e2, ih.1, e3, List.tail_cons]
    · have e3 := splitNl_cons_ne cs hc
      have e2 : scanAuxB numberedAt (c :: cs) = scanAuxB numberedAt cs := by
        conv_lhs => unfold scanAuxB
        rw [if_neg hc]
      constructor
      · unfold hasNumbered
        rw [e2, ih.2, e3, linesNumbered_cons]
        have hn := numberedAt_line (c :: cs)
        rw [List.takeWhile_cons_of_pos (by simp [nonNl, hc]),
          List.dropWhile_cons_of_pos (by simp [nonNl, hc])] at hn
        rw [hn, splitNl_headI]
        simp only [ne_eq, splitNl_tail_nil]
      · rw [e2, ih.2, e3, List.tail_cons]

/-- C9 (amended): `ensureSteps` first trims the body (so the raw body is not
returned verbatim — trailing and leading whitespace is dropped); if some line
of the trimmed body starts with one or more digits followed by a period and
whitespace (a space or tab inside the line, or the line break ending a
non-final line), the trimmed body is returned; otherwise the trimmed body is
wrapped as a single numbered step: prefixed with `1. ` and with every
following line indented by three spaces. -/
theorem ensureSteps_characterization (body : Str) :
    ensureSteps body =
      if linesNumbered (splitNl (jsTrim body)) = true then jsTrim body
      else str "1. " ++ joinSep (str "\n   ") (splitNl (jsTrim body)) := by
  show (if hasNumbered (jsTrim body) = true then jsTrim body
      else str "1. " ++ joinSep (str "\n   ") (splitNl (jsTrim body))) = _
  rw [(hasNumbered_lines (jsTrim body)).1]

/-! ## Claim C1: re-application of the workflow transform -/

theorem startsTriple_ne {c : Char} (l : Str) (hc : c ≠ '-') :
    startsTriple (c :: l) = false := by
  unfold startsTriple
  cases l with
  | nil => rfl
  | cons b l2 =>
    cases l2 with
    | nil => rfl
    | cons d l3 => simp [hc]

theorem hasTriple_cons (c : Char) (l : Str) :
    hasTriple (c :: l) = (startsTriple (c :: l) || hasTriple l) := rfl

theorem findTriple_no_dash (p l : Str) (hp : ∀ c ∈ p, c ≠ '-') :
    findTriple (p ++ l) = findTriple l := by
  induction p with
  | nil => rfl
  | cons c p2 ih =>
    rw [List.cons_append]
    conv_lhs => unfold findTriple
    rw [if_neg (by rw [startsTriple_ne _ (hp c (List.mem_cons_self _ _))]; simp)]
    exact ih (fun x hx => hp x (List.mem_cons_of_mem _ hx))

theorem startsTriple_close {c : Char} (D2 X : Str)
    (h1 : startsTriple (c :: D2) = false) :
    startsTriple (c :: (D2 ++ '\n' :: X)) = false := by
  cases D2 with
  | nil =>
    rw [List.nil_append]
    cases X with
    | nil => rfl
    | cons x xs =>
      unfold startsTriple
      simp
  | cons d1 D3 =>
    cases D3 with
    | nil =>
      unfold startsTriple
      simp
    | cons d2 D4 =>
      unfold startsTriple at h1 ⊢
      simpa using h1

theorem findTriple_close (D q : Str) (hD : hasTriple D = false) :
    findTriple (D ++ '\n' :: '-' :: '-' :: '-' :: q) = some q := by
  induction D with
  | nil =>
    rw [List.nil_append]
    conv_lhs => unfold findTriple
    rw [if_neg (by rw [startsTriple_ne _ (by decide)]; simp)]
    conv_lhs => unfold findTriple
    rw [if_pos (show startsTriple ('-' :: '-' :: '-' :: q) = true from rfl)]
    rfl
  | cons c D2 ih =>
    rw [hasTriple_cons, Bool.or_eq_false_iff] at hD
    rw [List.cons_append]
    conv_lhs => unfold findTriple
    rw [if_neg (by rw [startsTriple_close D2 _ hD.1]; simp)]
    exact ih hD.2

theorem joinSep_cons2 (sep l l2 : Str) (ls : List Str) :
    joinSep sep (l :: l2 :: ls) = l ++ sep ++ joinSep sep (l2 :: ls) := rfl

theorem joinSep_splitNl_last (sep : Str) :
    ∀ (x : Str) (lc : Char), x.getLast? = some lc → jsIsWS lc = false →
      ∃ t, joinSep sep (splitNl x) = t ++ [lc] := by
  intro x
  induction x with
  | nil =>
    intro lc h
    simp at h
  | cons c x2 ih =>
    intro lc hlc hws
    cases x2 with
    | nil =>
      have hceq : c = lc := by simpa using hlc
      subst hceq
      have hc : c ≠ '\n' := by
        intro e
        rw [e] at hws
        simp [jsIsWS] at hws
      rw [splitNl_cons_ne [] hc]
      exact ⟨[], rfl⟩
    | cons d x3 =>
      rw [List.getLast?_cons_cons] at hlc
      obtain ⟨t, ht⟩ := ih lc hlc hws
      by_cases hc : c = '\n'
      · subst hc
        have e3 : splitNl ('\n' :: d :: x3) = [] :: splitNl (d :: x3) := by
          conv_lhs => unfold splitNl
          rw [if_pos rfl]
        rw [e3]
        cases hs : splitNl (d :: x3) with
        | nil => exact absurd hs (splitNl_ne_nil _)
        | cons h tl =>
          rw [hs] at ht
          refine ⟨sep ++ t, ?_⟩
          rw [show joinSep sep ([] :: h :: tl) = [] ++ sep ++ joinSep sep (h :: tl) from rfl, ht]
          simp [List.append_assoc]
      · rw [splitNl_cons_ne (d :: x3) hc]
        cases hs : splitNl (d :: x3) with
        | nil => exact absurd hs (splitNl_ne_nil _)
        | cons h tl =>
          rw [hs] at ht
          cases tl with
          | nil =>
            refine ⟨c :: t, ?_⟩
            simp only [List.headI, List.tail_cons]
            rw [show joinSep sep [c :: h] = c :: h from rfl]
            rw [show joinSep sep [h] = h from rfl] at ht
            rw [ht]
            rfl
          | cons l2 tl2 =>
            rw [joinSep_cons2 sep h l2 tl2] at ht
            refine ⟨c :: t, ?_⟩
            simp only [List.headI, List.tail_cons]
            rw [joinSep_cons2 sep (c :: h) l2 tl2]
            rw [show (c :: h) ++ sep ++ joinSep sep (l2 :: tl2) =
              c :: (h ++ sep ++ joinSep sep (l2 :: tl2)) from by simp [List.append_assoc], ht]
            rfl

theorem numberedAt_one_dot (r : Str) : numberedAt ('1' :: '.' :: ' ' :: r) = true := by
  unfold numberedAt
  rw [List.takeWhile_cons_of_pos (by decide), List.takeWhile_cons_of_neg (by decide)]
  rfl

theorem ensureSteps_body_props (y : Str) (hy : jsTrim y ≠ []) :
    ensureSteps (jsTrim y) ≠ [] ∧
    (∀ c ∈ (ensureSteps (jsTrim y)).head?, jsIsWS c = false) ∧
    (∀ c ∈ (ensureSteps (jsTrim y)).getLast?, jsIsWS c = false) ∧
    ensureSteps (ensureSteps (jsTrim y)) = ensureSteps (jsTrim y) := by
  have hxx : jsTrim (jsTrim y) = jsTrim y := jsTrim_idem y
  have hES : ensureSteps (jsTrim y) =
      if hasNumbered (jsTrim y) = true then jsTrim y
      else str "1. " ++ joinSep (str "\n   ") (splitNl (jsTrim y)) := by
    show (if hasNumbered (jsTrim (jsTrim y)) = true then jsTrim (jsTrim y)
        else str "1. " ++ joinSep (str "\n   ") (splitNl (jsTrim (jsTrim y)))) = _
    rw [hxx]
  by_cases hn : hasNumbered (jsTrim y) = true
  · rw [hES, if_pos hn]
    refine ⟨hy, jsTrim_head_not_ws y, jsTrim_getLast_not_ws y, ?_⟩
    show (if hasNumbered (jsTrim (jsTrim y)) = true then jsTrim (jsTrim y)
        else str "1. " ++ joinSep (str "\n   ") (splitNl (jsTrim (jsTrim y)))) = _
    rw [hxx, if_pos hn]
  · rw [hES, if_neg hn]
    -- the wrapped form starts with '1' and ends with the last character of the body
    obtain ⟨lc, hlc⟩ : ∃ lc, (jsTrim y).getLast? = some lc := by
      cases hg : (jsTrim y).getLast? with
      | none => exact absurd (List.getLast?_eq_none_iff.mp hg) hy
      | some lc => exact ⟨lc, rfl⟩
    have hlcws : jsIsWS lc = false := jsTrim_getLast_not_ws y lc hlc
    obtain ⟨t, ht⟩ := joinSep_splitNl_last (str "\n   ") (jsTrim y) lc hlc hlcws
    have hshape : str "1. " ++ joinSep (str "\n   ") (splitNl (jsTrim y)) =
        '1' :: '.' :: ' ' :: joinSep (str "\n   ") (splitNl (jsTrim y)) := rfl
    refine ⟨by rw [hshape]; simp, ?_, ?_, ?_⟩
    · rw [hshape]
      intro c hc
      rw [Option.mem_def] at hc
      have : c = '1' := by simpa using hc.symm
      subst this
      rfl
    · intro c hc
      rw [ht] at hc
      rw [Option.mem_def] at hc
      rw [show str "1. " ++ (t ++ [lc]) = (str "1. " ++ t) ++ [lc] from by
        simp [List.append_assoc]] at hc
      rw [List.getLast?_concat] at hc
      have : c = lc := by simpa using hc.symm
      subst this
      exact hlcws
    · have hnum : hasNumbered (str "1. " ++ joinSep (str "\n   ") (splitNl (jsTrim y))) = true := by
        rw [hshape]
        unfold hasNumbered
        rw [numberedAt_one_dot]
        rfl
      have htr : jsTrim (str "1. " ++ joinSep (str "\n   ") (splitNl (jsTrim y))) =
          str "1. " ++ joinSep (str "\n   ") (splitNl (jsTrim y)) := by
        refine jsTrim_eq_self ?_ ?_
        · rw [hshape]
          intro c hc
          rw [Option.mem_def] at hc
          have : c = '1' := by simpa using hc.symm
          subst this
          rfl
        · intro c hc
          rw [ht] at hc
          rw [Option.mem_def] at hc
          rw [show str "1. " ++ (t ++ [lc]) = (str "1. " ++ t) ++ [lc] from by
            simp [List.append_assoc]] at hc
          rw [List.getLast?_concat] at hc
          have : c = lc := by simpa using hc.symm
          subst this
          exact hlcws
      show (if hasNumbered (jsTrim (str "1. " ++ joinSep (str "\n   ") (splitNl (jsTrim y)))) = true
          then jsTrim (str "1. " ++ joinSep (str "\n   ") (splitNl (jsTrim y)))
          else str "1. " ++ joinSep (str "\n   ") (splitNl (jsTrim (str "1. " ++
            joinSep (str "\n   ") (splitNl (jsTrim y)))))) = _
      rw [htr, if_pos hnum]

theorem toA_default_eq (s : Str) :
    toAntigravityWorkflowContent s {} =
      '-' :: '-' :: '-' ::
        (str "\ndescription: " ++ (deriveDescription s ++
          '\n' :: '-' :: '-' :: '-' ::
            ('\n' :: '\n' :: (ensureSteps (workflowBody s) ++ ['\n'])))) := by
  show (str "---\ndescription: " ++ mapNl (finalDescription s {}) ++ str "\n---\n")
      ++ '\n' ::
        (if ({} : WorkflowOptions).steps = some false then workflowBody s
         else ensureSteps (workflowBody s))
      ++ ['\n'] = _
  rw [finalDescription_default, mapNl_eq_self (deriveDescription_no_nl s)]
  rw [if_neg (by simp)]
  rw [show str "---\ndescription: " = '-' :: '-' :: '-' :: str "\ndescription: " from by decide,
    show str "\n---\n" = '\n' :: '-' :: '-' :: '-' :: ['\n'] from by decide]
  simp [List.append_assoc]

/-- C1 counterexample: applying the transform to its own output re-derives
the description from the already-transformed text, whose first line is
`---`; the description field changes from `hello world` to `---`, so the
output is not unchanged (and not merely up to whitespace). -/
theorem toAntigravityWorkflowContent_not_idempotent :
    toAntigravityWorkflowContent (str "hello world") {} =
      str "---\ndescription: hello world\n---\n\n1. hello world\n" ∧
    toAntigravityWorkflowContent
        (toAntigravityWorkflowContent (str "hello world") {}) {} =
      str "---\ndescription: ---\n---\n\n1. hello world\n" ∧
    toAntigravityWorkflowContent
        (toAntigravityWorkflowContent (str "hello world") {}) {} ≠
      toAntigravityWorkflowContent (str "hello world") {} :=
  ⟨by decide, by decide, by decide⟩

/-- C1 (amended): re-applying the transform (default options) to its own
output never duplicates the front-matter block and never double-wraps the
numbered step: whenever the derived description contains no `---` and the
stripped body is nonempty, the second output consists of exactly one
front-matter block followed by the unchanged body of the first output.  The
description field, however, is re-derived from the transformed content and
in general differs (it becomes `---` unless the body exposes a heading
line), so idempotence up to whitespace fails. -/
theorem toAntigravityWorkflowContent_reapply (s : Str)
    (h1 : hasTriple (deriveDescription s) = false)
    (h2 : jsTrim (replaceFM s) ≠ []) :
    toAntigravityWorkflowContent (toAntigravityWorkflowContent s {}) {} =
      str "---\ndescription: " ++
        deriveDescription (toAntigravityWorkflowContent s {}) ++
        (str "\n---\n" ++ '\n' :: (ensureSteps (workflowBody s) ++ ['\n'])) := by
  obtain ⟨Bne0, Bh0, Bl0, Bidem⟩ := ensureSteps_body_props (replaceFM s) h2
  have Bne : ensureSteps (workflowBody s) ≠ [] := Bne0
  have Bh : ∀ c ∈ (ensureSteps (workflowBody s)).head?, jsIsWS c = false := Bh0
  have Bl : ∀ c ∈ (ensureSteps (workflowBody s)).getLast?, jsIsWS c = false := Bl0
  have hfm : fmMatchAt (toAntigravityWorkflowContent s {}) =
      some (ensureSteps (workflowBody s) ++ ['\n']) := by
    rw [toA_default_eq s]
    unfold fmMatchAt
    rw [if_pos (show startsTriple ('-' :: '-' :: '-' :: _) = true from rfl)]
    rw [show ('-' :: '-' :: '-' ::
        (str "\ndescription: " ++ (deriveDescription s ++
          '\n' :: '-' :: '-' :: '-' ::
            ('\n' :: '\n' :: (ensureSteps (workflowBody s) ++ ['\n']))))).drop 3 =
      str "\ndescription: " ++ (deriveDescription s ++
        '\n' :: '-' :: '-' :: '-' ::
          ('\n' :: '\n' :: (ensureSteps (workflowBody s) ++ ['\n']))) from rfl]
    rw [findTriple_no_dash _ _ (by decide)]
    rw [findTriple_close _ _ h1]
    show some (List.dropWhile jsIsWS
        ('\n' :: '\n' :: (ensureSteps (workflowBody s) ++ ['\n']))) =
      some (ensureSteps (workflowBody s) ++ ['\n'])
    rw [show List.dropWhile jsIsWS
        ('\n' :: '\n' :: (ensureSteps (workflowBody s) ++ ['\n'])) =
      List.dropWhile jsIsWS (ensureSteps (workflowBody s) ++ ['\n']) from by
        rw [List.dropWhile_cons_of_pos (by decide), List.dropWhile_cons_of_pos (by decide)]]
    cases hBc : ensureSteps (workflowBody s) with
    | nil => exact absurd hBc Bne
    | cons b bt =>
      have hb : jsIsWS b = false := by
        have := Bh b
        rw [hBc] at this
        exact this rfl
      rw [List.cons_append, List.dropWhile_cons_of_neg (by simp [hb])]
  have hstrip : replaceFM (toAntigravityWorkflowContent s {}) =
      ensureSteps (workflowBody s) ++ ['\n'] := by
    unfold replaceFM
    rw [hfm]
  have hbody2 : workflowBody (toAntigravityWorkflowContent s {}) =
      ensureSteps (workflowBody s) := by
    unfold workflowBody
    rw [hstrip]
    exact jsTrim_append_nl Bne Bh Bl
  show (str "---\ndescription: " ++
      mapNl (finalDescription (toAntigravityWorkflowContent s {}) {}) ++ str "\n---\n")
    ++ '\n' ::
      (if ({} : WorkflowOptions).steps = some false then
        workflowBody (toAntigravityWorkflowContent s {})
       else ensureSteps (workflowBody (toAntigravityWorkflowContent s {})))
    ++ ['\n'] = _
  rw [finalDescription_default, mapNl_eq_self (deriveDescription_no_nl _)]
  rw [if_neg (by simp)]
  rw [hbody2,
    show ensureSteps (ensureSteps (workflowBody s)) = ensureSteps (workflowBody s) from Bidem]
  simp [List.append_assoc]

theorem toAntigravityWorkflowContent_reapply_witness :
    hasTriple (deriveDescription (str "hello world")) = false ∧
    jsTrim (replaceFM (str "hello world")) ≠ [] ∧
    toAntigravityWorkflowContent
        (toAntigravityWorkflowContent (str "hello world") {}) {} =
      str "---\ndescription: " ++
        deriveDescription (toAntigravityWorkflowContent (str "hello world") {}) ++
        (str "\n---\n" ++
          '\n' :: (ensureSteps (workflowBody (str "hello world")) ++ ['\n'])) :=
  ⟨by decide, by decide,
    toAntigravityWorkflowContent_reapply (str "hello world") (by decide) (by decide)⟩
